import Mathlib

/-!
Verification of the hint-normalization pass and the layer-layout solver of the
ExpanderCompilerCollection arithmetic-circuit compiler.

The definitions below are a shallow embedding of the two Rust source files

  * `src/expander_compiler/src/builder/hint_normalize.rs`
  * `src/expander_compiler/src/layering/layer_layout.rs`

translated function by function.  Helper code of the repository that the two
files call but that is not part of the provided sources (the shared builder
driver `builder/basic.rs`, the evaluator, `utils::misc::next_power_of_two`,
the `BuiltinHintIds` enumeration) is modelled from the specification; each such
definition carries a doc comment starting with `Modelled from the spec:`.

Machine integers (`usize`) are modelled as `Nat`; the sentinel `EMPTY` is the
64-bit `usize::MAX`.  The circuit field `C::CircuitField` is an arbitrary
`Field F` with decidable equality; concrete counterexamples instantiate
`F := ZMod 5`.  Rust `panic!` aborts are modelled as a distinguished
`panicked` outcome, kept separate from `Err` results.
-/

namespace ECC

/-! ## Field-generic IR substrate (`circuit/ir`, as used by `hint_normalize.rs`) -/

/-- One `(coef, var)` term of a linear combination (`expr::LinCombTerm`). -/
structure LinCombTerm (F : Type) where
  coef : F
  var : Nat
deriving DecidableEq

/-- A linear combination: terms plus an additive constant (`expr::LinComb`). -/
structure LinComb (F : Type) where
  terms : List (LinCombTerm F)
  constant : F
deriving DecidableEq

/-- A coefficient: literal field element or symbolic random (`layered::Coef`). -/
inductive Coef (F : Type) where
  | Constant (c : F)
  | Random
deriving DecidableEq

/-- Boolean binary op tags (`ir::source::BoolBinOpType`). -/
inductive BoolBinOpType where
  | And
  | Or
  | Xor
deriving DecidableEq

/-- Unconstrained binary op tags (`ir::source::UnconstrainedBinOpType`). -/
inductive UnconstrainedBinOpType where
  | Div
  | Pow
  | IntDiv
  | Mod
  | ShiftL
  | ShiftR
  | LesserEq
  | GreaterEq
  | Lesser
  | Greater
  | Eq
  | NotEq
  | BoolOr
  | BoolAnd
  | BitOr
  | BitAnd
  | BitXor
deriving DecidableEq

/-- Modelled from the spec: the builtin hint id enumeration (`hints::BuiltinHintIds`,
not among the provided sources).  The spec fixes the table
`Div, Pow, IntDiv, Mod, ShiftL, ShiftR, LesserEq, GreaterEq, Lesser, Greater,
Eq, NotEq, BoolOr, BoolAnd, BitOr, BitAnd, BitXor, Select` and says the ids are
wire-stable; the concrete numbering is abstracted as the enum order. -/
inductive BuiltinHintIds where
  | Div
  | Pow
  | IntDiv
  | Mod
  | ShiftL
  | ShiftR
  | LesserEq
  | GreaterEq
  | Lesser
  | Greater
  | Eq
  | NotEq
  | BoolOr
  | BoolAnd
  | BitOr
  | BitAnd
  | BitXor
  | Select
deriving DecidableEq

/-- Modelled from the spec: a stable integer id for each builtin hint
(`BuiltinHintIds::Div as usize` etc.); the enum order is used as the id. -/
def BuiltinHintIds.toNat : BuiltinHintIds → Nat
  | .Div => 0
  | .Pow => 1
  | .IntDiv => 2
  | .Mod => 3
  | .ShiftL => 4
  | .ShiftR => 5
  | .LesserEq => 6
  | .GreaterEq => 7
  | .Lesser => 8
  | .Greater => 9
  | .Eq => 10
  | .NotEq => 11
  | .BoolOr => 12
  | .BoolAnd => 13
  | .BitOr => 14
  | .BitAnd => 15
  | .BitXor => 16
  | .Select => 17

/-- Source-IR instructions (`ir::source::Instruction`, alias `InsnIn` in
`hint_normalize.rs`). -/
inductive InsnIn (F : Type) where
  | LinComb (lc : ECC.LinComb F)
  | Mul (vars : List Nat)
  | Div (x y : Nat) (checked : Bool)
  | BoolBinOp (x y : Nat) (op : BoolBinOpType)
  | IsZero (x : Nat)
  | Commit (x : Nat)
  | Hint (hint_id : Nat) (inputs : List Nat) (num_outputs : Nat)
  | ConstantOrRandom (coef : Coef F)
  | SubCircuitCall (sub_circuit_id : Nat) (inputs : List Nat) (num_outputs : Nat)
  | UnconstrainedBinOp (x y : Nat) (op : UnconstrainedBinOpType)
  | UnconstrainedSelect (cond if_true if_false : Nat)
deriving DecidableEq

/-- Hint-normalized-IR instructions (`ir::hint_normalized::Instruction`, alias
`InsnOut` in `hint_normalize.rs`). -/
inductive InsnOut (F : Type) where
  | LinComb (lc : ECC.LinComb F)
  | Mul (vars : List Nat)
  | Hint (hint_id : Nat) (inputs : List Nat) (num_outputs : Nat)
  | ConstantOrRandom (coef : Coef F)
  | SubCircuitCall (sub_circuit_id : Nat) (inputs : List Nat) (num_outputs : Nat)
deriving DecidableEq

/-- Source-IR constraint kinds (`ir::source::ConstraintType`). -/
inductive ConstraintType where
  | Zero
  | Bool
  | NonZero
deriving DecidableEq

/-- A source constraint `(var, type)` (`ir::source::Constraint`). -/
structure SourceConstraint where
  typ : ConstraintType
  var : Nat
deriving DecidableEq

/-- Number of output variables an output instruction produces (1 unless the
tag carries an explicit `num_outputs`). -/
def InsnOut.numOutputs {F : Type} : InsnOut F → Nat
  | .LinComb _ => 1
  | .Mul _ => 1
  | .Hint _ _ n => n
  | .ConstantOrRandom _ => 1
  | .SubCircuitCall _ _ n => n

/-- Number of output variables a source instruction produces. -/
def InsnIn.numOutputs {F : Type} : InsnIn F → Nat
  | .Hint _ _ n => n
  | .SubCircuitCall _ _ n => n
  | _ => 1

/-! ## The incremental builder

Modelled from the spec: the shared builder machinery (`builder/basic.rs`) is
not among the provided sources.  Per the spec it (a) appends rewritten
instructions to the output circuit, (b) tracks known constant values of
variables by forward propagation of `ConstantOrRandom(Constant c)`, and
(c) assigns each emitted instruction fresh output variable ids; `assert`
enqueues a raw `Zero` constraint and `mark` records a layering mark. -/

/-- Builder state threaded through the rewriting of one circuit.  `numOut` is
the number of output-circuit variables defined so far (inputs included; ids
are 1-based, id 0 is the constant-1 slot). -/
structure Builder (F : Type) where
  outInsns : List (InsnOut F)
  numOut : Nat
  constValues : List (Nat × F)
  asserts : List Nat
  marks : List Nat
deriving DecidableEq

/-- Modelled from the spec: `push_insn` appends one output instruction,
allocates its fresh output variables, records constant propagation for
`ConstantOrRandom(Constant c)`, and returns the last allocated variable id. -/
def Builder.push_insn {F : Type} (b : Builder F) (insn : InsnOut F) : Builder F × Nat :=
  let k := insn.numOutputs
  let cv := match insn with
    | .ConstantOrRandom (.Constant c) => b.constValues ++ [(b.numOut + 1, c)]
    | _ => b.constValues
  ({ b with outInsns := b.outInsns ++ [insn], numOut := b.numOut + k, constValues := cv },
    b.numOut + k)

/-- Modelled from the spec: `constant_value` returns the tracked constant of a
variable, if any. -/
def Builder.constant_value {F : Type} (b : Builder F) (x : Nat) : Option F :=
  (b.constValues.find? (fun p => p.1 == x)).map (fun p => p.2)

/-- Modelled from the spec: `assert` enqueues a `Zero(v)` raw constraint. -/
def Builder.assert_var {F : Type} (b : Builder F) (t : Nat) : Builder F :=
  { b with asserts := b.asserts ++ [t] }

/-- Modelled from the spec: `mark` records a layering mark for `v`. -/
def Builder.mark_var {F : Type} (b : Builder F) (t : Nat) : Builder F :=
  { b with marks := b.marks ++ [t] }

/-- Transcribes `Builder::push_const` (hint_normalize.rs lines 27-30). -/
def Builder.push_const {F : Type} [Field F] (b : Builder F) (c : F) : Builder F × Nat :=
  b.push_insn (.ConstantOrRandom (.Constant c))

/-- Transcribes `Builder::push_add` (lines 31-46). -/
def Builder.push_add {F : Type} [Field F] (b : Builder F) (a1 a2 : Nat) : Builder F × Nat :=
  b.push_insn (.LinComb ⟨[⟨1, a1⟩, ⟨1, a2⟩], 0⟩)

/-- Transcribes `Builder::push_sub` (lines 47-62). -/
def Builder.push_sub {F : Type} [Field F] (b : Builder F) (a1 a2 : Nat) : Builder F × Nat :=
  b.push_insn (.LinComb ⟨[⟨1, a1⟩, ⟨-1, a2⟩], 0⟩)

/-- Transcribes `Builder::push_mul` (lines 63-65). -/
def Builder.push_mul {F : Type} [Field F] (b : Builder F) (a1 a2 : Nat) : Builder F × Nat :=
  b.push_insn (.Mul [a1, a2])

/-- Transcribes `Builder::copy` (lines 66-74): a one-term identity `LinComb`. -/
def copy {F : Type} [Field F] (a : Nat) : InsnOut F :=
  .LinComb ⟨[⟨1, a⟩], 0⟩

/-- Transcribes `Builder::bool_cond` (lines 75-79): pushes `a · (a − 1)`. -/
def Builder.bool_cond {F : Type} [Field F] (b : Builder F) (a : Nat) : Builder F × Nat :=
  let r1 := b.push_const 1
  let r2 := r1.1.push_sub a r1.2
  r2.1.push_mul a r2.2

/-- Transcribes `Builder::assert_bool` (lines 80-83). -/
def Builder.assert_bool {F : Type} [Field F] (b : Builder F) (a : Nat) : Builder F :=
  let r := b.bool_cond a
  r.1.assert_var r.2

/-- Transcribes `Builder::mark_bool` (lines 84-87). -/
def Builder.mark_bool {F : Type} [Field F] (b : Builder F) (a : Nat) : Builder F :=
  let r := b.bool_cond a
  r.1.mark_var r.2

/-- Outcome of rewriting one instruction: the updated builder and the final
output instruction, an `Err(message)`, or a Rust `panic!` abort. -/
inductive TransformResult (F : Type) where
  | ok (b : Builder F) (insn : InsnOut F)
  | err (msg : String)
  | panicked (msg : String)
deriving DecidableEq

/-- Transcribes the `op → hint id` table of `transform_in_to_out`
(lines 214-233). -/
def UnconstrainedBinOpType.toHintId : UnconstrainedBinOpType → BuiltinHintIds
  | .Div => .Div
  | .Pow => .Pow
  | .IntDiv => .IntDiv
  | .Mod => .Mod
  | .ShiftL => .ShiftL
  | .ShiftR => .ShiftR
  | .LesserEq => .LesserEq
  | .GreaterEq => .GreaterEq
  | .Lesser => .Lesser
  | .Greater => .Greater
  | .Eq => .Eq
  | .NotEq => .NotEq
  | .BoolOr => .BoolOr
  | .BoolAnd => .BoolAnd
  | .BitOr => .BitOr
  | .BitAnd => .BitAnd
  | .BitXor => .BitXor

/-- Transcribes `transform_in_to_out` (hint_normalize.rs lines 91-261).
`opEval` abstracts `UnconstrainedBinOpType::eval` (defined outside the
provided sources); every theorem below quantifies over it.  Note the `Xor`
arm: the source builds the `LinComb` with coefficient `one + one` on the
product term (lines 141-155), exactly as transcribed here. -/
def transform_in_to_out {F : Type} [Field F] [DecidableEq F]
    (opEval : UnconstrainedBinOpType → F → F → Except String F)
    (b : Builder F) (in_insn : InsnIn F) : TransformResult F :=
  match in_insn with
  | .LinComb lcs => .ok b (.LinComb lcs)
  | .Mul vars => .ok b (.Mul vars)
  | .Div x y checked =>
    match b.constant_value y with
    | some yv =>
      if yv = 0 then .err "division by zero constant"
      else
        let r := b.push_const yv⁻¹
        .ok r.1 (.Mul [x, r.2])
    | none =>
      if checked then
        let r1 := b.push_const 1
        let r2 := r1.1.push_insn (.Hint BuiltinHintIds.Div.toNat [r1.2, y] 1)
        let r3 := r2.1.push_mul y r2.2
        let r4 := r3.1.push_sub r3.2 r1.2
        .ok (r4.1.assert_var r4.2) (.Mul [x, r2.2])
      else
        let r1 := b.push_insn (.Hint BuiltinHintIds.Div.toNat [x, y] 1)
        let r2 := r1.1.push_mul y r1.2
        let r3 := r2.1.push_sub r2.2 x
        .ok (r3.1.assert_var r3.2) (copy r1.2)
  | .BoolBinOp x y op =>
    let b1 := b.assert_bool x
    let b2 := b1.assert_bool y
    let r3 := b2.push_add x y
    let r4 := r3.1.push_mul x y
    let r5 : Builder F × Nat :=
      match op with
      | .And => (r4.1, r4.2)
      | .Or => r4.1.push_sub r3.2 r4.2
      | .Xor => r4.1.push_insn (.LinComb ⟨[⟨1, r3.2⟩, ⟨(1 : F) + 1, r4.2⟩], 0⟩)
    .ok (r5.1.mark_bool r5.2) (copy r5.2)
  | .IsZero x =>
    match b.constant_value x with
    | some xv =>
      .ok b (.ConstantOrRandom (.Constant (if xv = 0 then 1 else 0)))
    | none =>
      let r1 := b.push_const 1
      let r2 := r1.1.push_insn (.Hint BuiltinHintIds.Div.toNat [r1.2, x] 1)
      let r3 := r2.1.push_mul x r2.2
      let r4 := r3.1.push_sub r1.2 r3.2
      let r5 := r4.1.push_mul x r4.2
      .ok ((r5.1.assert_var r5.2).mark_bool r4.2) (copy r4.2)
  | .Commit _ => .panicked "commit is unimplemented"
  | .Hint hint_id inputs num_outputs => .ok b (.Hint hint_id inputs num_outputs)
  | .ConstantOrRandom coef => .ok b (.ConstantOrRandom coef)
  | .SubCircuitCall sub_circuit_id inputs num_outputs =>
    .ok b (.SubCircuitCall sub_circuit_id inputs num_outputs)
  | .UnconstrainedBinOp x y op =>
    match b.constant_value x, b.constant_value y with
    | some xv, some yv =>
      match opEval op xv yv with
      | .ok v => .ok b (.ConstantOrRandom (.Constant v))
      | .error e => .err e
    | some _, none => .ok b (.Hint op.toHintId.toNat [x, y] 1)
    | none, some _ => .ok b (.Hint op.toHintId.toNat [x, y] 1)
    | none, none => .ok b (.Hint op.toHintId.toNat [x, y] 1)
  | .UnconstrainedSelect cond if_true if_false =>
    match b.constant_value cond with
    | some cv => if cv = 0 then .ok b (copy if_false) else .ok b (copy if_true)
    | none => .ok b (.Hint BuiltinHintIds.Select.toNat [cond, if_true, if_false] 1)

/-- Transcribes `transform_in_con_to_out` (lines 263-284); the source returns
`Result<RawConstraint, String>` but no arm errs, so the embedding returns the
raw constraint variable directly. -/
def transform_in_con_to_out {F : Type} [Field F] [DecidableEq F]
    (b : Builder F) (c : SourceConstraint) : Builder F × Nat :=
  match c.typ with
  | .Zero => (b, c.var)
  | .Bool => b.bool_cond c.var
  | .NonZero =>
    let r1 := b.push_const 1
    let r2 := r1.1.push_insn (.Hint BuiltinHintIds.Div.toNat [r1.2, c.var] 1)
    let r3 := r2.1.push_mul c.var r2.2
    r3.1.push_sub r3.2 r1.2

/-! ## The per-circuit driver

Modelled from the spec: `process_root_circuit` and the per-circuit walk live
in `builder/basic.rs`, which is not among the provided sources.  Per the spec,
the driver walks the instructions in order, substitutes variable references
through the in-to-out map ("Cross-instruction substitution is performed by the
shared builder machinery"), rewrites each instruction to zero or more output
instructions whose last emitted variable id substitutes the original output,
and aborts on the first `Err`. -/

/-- Replace every variable reference of a `LinComb` through `m`. -/
def LinComb.replace_vars {F : Type} (m : Nat → Nat) (lc : LinComb F) : LinComb F :=
  ⟨lc.terms.map (fun t => ⟨t.coef, m t.var⟩), lc.constant⟩

/-- Replace every variable reference of a source instruction through `m`. -/
def InsnIn.replace_vars {F : Type} (m : Nat → Nat) : InsnIn F → InsnIn F
  | .LinComb lc => .LinComb (lc.replace_vars m)
  | .Mul vars => .Mul (vars.map m)
  | .Div x y c => .Div (m x) (m y) c
  | .BoolBinOp x y op => .BoolBinOp (m x) (m y) op
  | .IsZero x => .IsZero (m x)
  | .Commit x => .Commit (m x)
  | .Hint id inputs n => .Hint id (inputs.map m) n
  | .ConstantOrRandom c => .ConstantOrRandom c
  | .SubCircuitCall id inputs n => .SubCircuitCall id (inputs.map m) n
  | .UnconstrainedBinOp x y op => .UnconstrainedBinOp (m x) (m y) op
  | .UnconstrainedSelect c t f => .UnconstrainedSelect (m c) (m t) (m f)

/-- A source circuit (`ir::common::Circuit` over the source instruction set). -/
structure Circuit (F : Type) where
  instructions : List (InsnIn F)
  constraints : List SourceConstraint
  outputs : List Nat
  num_inputs : Nat
  num_hint_inputs : Nat
deriving DecidableEq

/-- A hint-normalized circuit; constraints are raw `Zero(var)` constraints. -/
structure OutCircuit (F : Type) where
  instructions : List (InsnOut F)
  constraints : List Nat
  outputs : List Nat
  num_inputs : Nat
  num_hint_inputs : Nat
deriving DecidableEq

/-- Intermediate state of the instruction walk: the builder plus the
in-variable to out-variable map (`inToOut.getD v 0`), or an abort. -/
inductive ProcState (F : Type) where
  | ok (b : Builder F) (inToOut : List Nat)
  | err (msg : String)
  | panicked (msg : String)
deriving DecidableEq

/-- Modelled from the spec: the driver loop over a circuit's instructions.
Each source instruction is var-substituted, rewritten, its final instruction
pushed, and the map extended so that the source instruction's `k` outputs name
the last `k` freshly allocated output variables. -/
def process_insns {F : Type} [Field F] [DecidableEq F]
    (opEval : UnconstrainedBinOpType → F → F → Except String F) :
    List (InsnIn F) → ProcState F → ProcState F
  | [], st => st
  | insn :: rest, .ok b inToOut =>
    match transform_in_to_out opEval b (insn.replace_vars (fun v => inToOut.getD v 0)) with
    | .ok b1 out =>
      let r := b1.push_insn out
      let k := insn.numOutputs
      process_insns opEval rest
        (.ok r.1 (inToOut ++ (List.range k).map (fun j => r.2 - k + 1 + j)))
    | .err m => .err m
    | .panicked m => .panicked m
  | _ :: _, .err m => .err m
  | _ :: _, .panicked m => .panicked m

/-- Modelled from the spec: the driver loop over a circuit's source
constraints; returns the updated builder and raw constraint variables. -/
def process_cons {F : Type} [Field F] [DecidableEq F] :
    List SourceConstraint → Builder F → (Nat → Nat) → Builder F × List Nat
  | [], b, _ => (b, [])
  | c :: rest, b, m =>
    let r := transform_in_con_to_out b ⟨c.typ, m c.var⟩
    let rr := process_cons rest r.1 m
    (rr.1, r.2 :: rr.2)

/-- Result of processing one circuit. -/
inductive CircuitResult (F : Type) where
  | ok (c : OutCircuit F)
  | err (msg : String)
  | panicked (msg : String)
deriving DecidableEq

/-- Modelled from the spec: processing one circuit.  The builder starts after
the inputs and hint inputs (identity map on them), instructions are walked in
order, then constraints; the output constraints are the raw constraints
enqueued by `assert` during rewriting followed by the rewritten source
constraints, and output variable references are substituted. -/
def process_circuit {F : Type} [Field F] [DecidableEq F]
    (opEval : UnconstrainedBinOpType → F → F → Except String F)
    (c : Circuit F) : CircuitResult F :=
  let n := c.num_inputs + c.num_hint_inputs
  match process_insns opEval c.instructions (.ok ⟨[], n, [], [], []⟩ (List.range (n + 1))) with
  | .ok b1 inToOut =>
    let m := fun v => inToOut.getD v 0
    let r := process_cons c.constraints b1 m
    .ok ⟨r.1.outInsns, r.1.asserts ++ r.2, c.outputs.map m, c.num_inputs, c.num_hint_inputs⟩
  | .err msg => .err msg
  | .panicked msg => .panicked msg

/-- A root circuit: an association of circuit ids to circuit definitions;
circuit id 0 is the entry. -/
structure RootCircuit (F : Type) where
  circuits : List (Nat × Circuit F)
deriving DecidableEq

/-- A processed root circuit. -/
structure OutRootCircuit (F : Type) where
  circuits : List (Nat × OutCircuit F)
deriving DecidableEq

/-- Result of `process`: a complete output, an `Err(message)`, or an abort of
the whole pass via `panic!`. -/
inductive ProcessResult (F : Type) where
  | ok (rc : OutRootCircuit F)
  | err (msg : String)
  | panicked (msg : String)
deriving DecidableEq

/-- True exactly on the `err` outcome. -/
def ProcessResult.isErrMsg {F : Type} : ProcessResult F → Bool
  | .err _ => true
  | _ => false

/-- Modelled from the spec: process every circuit of the root; the first
`Err` aborts with no partial output, a `panic!` aborts the pass itself. -/
def process_go {F : Type} [Field F] [DecidableEq F]
    (opEval : UnconstrainedBinOpType → F → F → Except String F) :
    List (Nat × Circuit F) → ProcessResult F
  | [] => .ok ⟨[]⟩
  | (id, c) :: rest =>
    match process_circuit opEval c with
    | .ok oc =>
      match process_go opEval rest with
      | .ok rc => .ok ⟨(id, oc) :: rc.circuits⟩
      | .err m => .err m
      | .panicked m => .panicked m
    | .err m => .err m
    | .panicked m => .panicked m

/-- Transcribes `process` (hint_normalize.rs lines 322-326), which delegates
to `process_root_circuit` in the shared builder machinery. -/
def process {F : Type} [Field F] [DecidableEq F]
    (opEval : UnconstrainedBinOpType → F → F → Except String F)
    (rc : RootCircuit F) : ProcessResult F :=
  process_go opEval rc.circuits

/-! ## Evaluation semantics

Modelled from the spec: the evaluator (`eval_unsafe_with_errors`) is not among
the provided sources; the instruction semantics below follow the table of
spec section 3.  `Random` coefficients are out of scope of every claim here
and evaluate to an error.  Hint instructions are evaluated through a
deterministic oracle `hintEval` over which all theorems quantify. -/

/-- Evaluate a linear combination over the value environment `vals`
(`vals.getD v 0` is the value of variable `v`; index 0 holds the constant 1). -/
def LinComb.eval {F : Type} [Field F] (vals : List F) (lc : LinComb F) : F :=
  (lc.terms.map (fun t => t.coef * vals.getD t.var 0)).sum + lc.constant

/-- Interpret a field value as a boolean, failing when it is neither 0 nor 1. -/
def bool01 {F : Type} [Field F] [DecidableEq F] (x : F) : Option Bool :=
  if x = 0 then some false else if x = 1 then some true else none

/-- Boolean semantics of the three boolean binary ops. -/
def BoolBinOpType.evalb : BoolBinOpType → Bool → Bool → Bool
  | .And, a, b => a && b
  | .Or, a, b => a || b
  | .Xor, a, b => xor a b

/-- Find a circuit definition by id. -/
def lookup_circuit {F : Type} (cs : List (Nat × Circuit F)) (id : Nat) : Option (Circuit F) :=
  (cs.find? (fun p => p.1 == id)).map (fun p => p.2)

/-- Find a processed circuit definition by id. -/
def lookup_out_circuit {F : Type} (cs : List (Nat × OutCircuit F)) (id : Nat) :
    Option (OutCircuit F) :=
  (cs.find? (fun p => p.1 == id)).map (fun p => p.2)

/-- Modelled from the spec: evaluation of a source instruction list, extending
the value environment with each instruction's outputs; `fuel` decreases on
every step so that sub-circuit recursion is structural. -/
def eval_insns {F : Type} [Field F] [DecidableEq F]
    (hintEval : Nat → List F → Nat → Option (List F)) :
    Nat → RootCircuit F → List (InsnIn F) → List F → Option (List F)
  | 0, _, _, _ => none
  | _ + 1, _, [], vals => some vals
  | fuel + 1, root, insn :: rest, vals =>
    let step : Option (List F) :=
      match insn with
      | .LinComb lc => some [lc.eval vals]
      | .Mul vars => some [(vars.map (fun v => vals.getD v 0)).prod]
      | .Div x y checked =>
        let xv := vals.getD x 0
        let yv := vals.getD y 0
        if checked then (if yv = 0 then none else some [xv * yv⁻¹])
        else some [if yv = 0 then 0 else xv * yv⁻¹]
      | .BoolBinOp x y op =>
        match bool01 (vals.getD x 0), bool01 (vals.getD y 0) with
        | some xb, some yb => some [if op.evalb xb yb then 1 else 0]
        | _, _ => none
      | .IsZero x => some [if vals.getD x 0 = 0 then 1 else 0]
      | .Commit _ => none
      | .Hint id inputs n =>
        match hintEval id (inputs.map (fun v => vals.getD v 0)) n with
        | some outs => if outs.length = n then some outs else none
        | none => none
      | .ConstantOrRandom (.Constant c) => some [c]
      | .ConstantOrRandom .Random => none
      | .SubCircuitCall id inputs n =>
        match lookup_circuit root.circuits id with
        | some sub =>
          if inputs.length = sub.num_inputs + sub.num_hint_inputs ∧ n = sub.outputs.length then
            match eval_insns hintEval fuel root sub.instructions
                (1 :: inputs.map (fun v => vals.getD v 0)) with
            | some svals => some (sub.outputs.map (fun v => svals.getD v 0))
            | none => none
          else none
        | none => none
      | .UnconstrainedBinOp _ _ _ => none
      | .UnconstrainedSelect c t f =>
        some [if vals.getD c 0 = 0 then vals.getD f 0 else vals.getD t 0]
    match step with
    | some outs => eval_insns hintEval fuel root rest (vals ++ outs)
    | none => none

/-- Modelled from the spec: evaluation of a source circuit on an input vector
covering its inputs and hint inputs; returns the output vector. -/
def eval_circuit {F : Type} [Field F] [DecidableEq F]
    (hintEval : Nat → List F → Nat → Option (List F))
    (fuel : Nat) (root : RootCircuit F) (c : Circuit F) (inputs : List F) :
    Option (List F) :=
  if inputs.length = c.num_inputs + c.num_hint_inputs then
    match eval_insns hintEval fuel root c.instructions (1 :: inputs) with
    | some vals => some (c.outputs.map (fun v => vals.getD v 0))
    | none => none
  else none

/-- Modelled from the spec: evaluation of a source root circuit (entry id 0). -/
def eval_root {F : Type} [Field F] [DecidableEq F]
    (hintEval : Nat → List F → Nat → Option (List F))
    (fuel : Nat) (root : RootCircuit F) (inputs : List F) : Option (List F) :=
  match lookup_circuit root.circuits 0 with
  | some c => eval_circuit hintEval fuel root c inputs
  | none => none

/-- Modelled from the spec: evaluation of a hint-normalized instruction list. -/
def eval_insns_out {F : Type} [Field F] [DecidableEq F]
    (hintEval : Nat → List F → Nat → Option (List F)) :
    Nat → OutRootCircuit F → List (InsnOut F) → List F → Option (List F)
  | 0, _, _, _ => none
  | _ + 1, _, [], vals => some vals
  | fuel + 1, root, insn :: rest, vals =>
    let step : Option (List F) :=
      match insn with
      | .LinComb lc => some [lc.eval vals]
      | .Mul vars => some [(vars.map (fun v => vals.getD v 0)).prod]
      | .Hint id inputs n =>
        match hintEval id (inputs.map (fun v => vals.getD v 0)) n with
        | some outs => if outs.length = n then some outs else none
        | none => none
      | .ConstantOrRandom (.Constant c) => some [c]
      | .ConstantOrRandom .Random => none
      | .SubCircuitCall id inputs n =>
        match lookup_out_circuit root.circuits id with
        | some sub =>
          if inputs.length = sub.num_inputs + sub.num_hint_inputs ∧ n = sub.outputs.length then
            match eval_insns_out hintEval fuel root sub.instructions
                (1 :: inputs.map (fun v => vals.getD v 0)) with
            | some svals => some (sub.outputs.map (fun v => svals.getD v 0))
            | none => none
          else none
        | none => none
    match step with
    | some outs => eval_insns_out hintEval fuel root rest (vals ++ outs)
    | none => none

/-- Modelled from the spec: evaluation of a hint-normalized circuit. -/
def eval_out_circuit {F : Type} [Field F] [DecidableEq F]
    (hintEval : Nat → List F → Nat → Option (List F))
    (fuel : Nat) (root : OutRootCircuit F) (c : OutCircuit F) (inputs : List F) :
    Option (List F) :=
  if inputs.length = c.num_inputs + c.num_hint_inputs then
    match eval_insns_out hintEval fuel root c.instructions (1 :: inputs) with
    | some vals => some (c.outputs.map (fun v => vals.getD v 0))
    | none => none
  else none

/-- Modelled from the spec: evaluation of a processed root circuit. -/
def eval_out_root {F : Type} [Field F] [DecidableEq F]
    (hintEval : Nat → List F → Nat → Option (List F))
    (fuel : Nat) (root : OutRootCircuit F) (inputs : List F) : Option (List F) :=
  match lookup_out_circuit root.circuits 0 with
  | some c => eval_out_circuit hintEval fuel root c inputs
  | none => none

/-! ## Layer layout solver (`layering/layer_layout.rs`) -/

/-- The sentinel slot value (`input_mapping::EMPTY`, i.e. `usize::MAX` on a
64-bit target); distinct from every legal variable id. -/
def EMPTY : Nat := 2 ^ 64 - 1

/-- Modelled from the spec: fuel-driven loop computing the least power of two
that is `≥ n` (`utils::misc::next_power_of_two`, not among the provided
sources; the spec requires padding "up to the next power of two"). -/
def next_power_of_two_go : Nat → Nat → Nat → Nat
  | 0, _, acc => acc
  | fuel + 1, n, acc => if n ≤ acc then acc else next_power_of_two_go fuel n (2 * acc)

/-- Modelled from the spec: the least power of two `≥ n` (1 when `n = 0`). -/
def next_power_of_two (n : Nat) : Nat := next_power_of_two_go n n 1

/-- The accept test of `merge_layouts` (lines 470-477): group `pg` may be
overlaid at offset `i` when every paired slot is `EMPTY` on one side. -/
def can_place (res pg : List Nat) (i : Nat) : Bool :=
  (List.range pg.length).all fun j => res.getD (i + j) EMPTY == EMPTY || pg.getD j EMPTY == EMPTY

/-- The overlay loop of `merge_layouts` (lines 479-483): write every
non-`EMPTY` entry of `pg` into `res` starting at offset `i`. -/
def overlay : List Nat → List Nat → Nat → List Nat
  | res, [], _ => res
  | res, p :: ps, i => overlay (if p ≠ EMPTY then res.set i p else res) ps (i + 1)

/-- One placement step of `merge_layouts` (lines 463-491): try the strides
`0, |pg|, 2·|pg|, …` inside `res` and overlay at the first accepted offset,
otherwise append `pg` at the end.  (The stride walk matches the Rust
`step_by` loop: under the maintained invariant `|pg|` divides `|res|`,
the candidate offsets are exactly the multiples of `|pg|` that leave room
for `pg`.) -/
def place_group (res pg : List Nat) : List Nat :=
  match ((List.range (res.length / pg.length)).map (fun t => t * pg.length)).find?
      (can_place res pg) with
  | some i => overlay res pg i
  | none => res ++ pg

/-- Fold of `place_group` over the sorted non-empty groups. -/
def place_all : List (List Nat) → List Nat → List Nat
  | [], res => res
  | pg :: rest, res => place_all rest (place_group res pg)

/-- The comparator of the sorts in `merge_layouts` (lines 456-461) and
`solve_layer_layout_normal` (lines 388-393): descending by `f`, index
ascending as tiebreak. -/
def desc_idx_le (f : Nat → Nat) (i j : Nat) : Prop :=
  f j < f i ∨ (f i = f j ∧ i ≤ j)

instance desc_idx_le_dec (f : Nat → Nat) : DecidableRel (desc_idx_le f) := fun i j =>
  inferInstanceAs (Decidable (f j < f i ∨ (f i = f j ∧ i ≤ j)))

instance desc_idx_le_total (f : Nat → Nat) : IsTotal Nat (desc_idx_le f) := by
  constructor
  intro i j
  unfold desc_idx_le
  rcases Nat.lt_trichotomy (f i) (f j) with h | h | h
  · exact Or.inr (Or.inl h)
  · rcases Nat.le_total i j with hij | hij
    · exact Or.inl (Or.inr ⟨h, hij⟩)
    · exact Or.inr (Or.inr ⟨h.symm, hij⟩)
  · exact Or.inl (Or.inl h)

instance desc_idx_le_trans (f : Nat → Nat) : IsTrans Nat (desc_idx_le f) := by
  constructor
  intro i j k hij hjk
  unfold desc_idx_le at *
  rcases hij with h1 | ⟨h1, h1b⟩ <;> rcases hjk with h2 | ⟨h2, h2b⟩
  · exact Or.inl (h2.trans h1)
  · exact Or.inl (h2 ▸ h1)
  · exact Or.inl (h1 ▸ h2)
  · exact Or.inr ⟨h1.trans h2, h1b.trans h2b⟩

/-- The sorted iteration order over the non-empty groups (lines 450-461):
indices of non-empty groups, sorted by descending length with the index as
tiebreak. -/
def sorted_order (s : List (List Nat)) : List Nat :=
  List.insertionSort (desc_idx_le (fun i => (s.getD i []).length))
    ((List.range s.length).filter (fun i => !(s.getD i []).isEmpty))

/-- The fill loop of `merge_layouts` (lines 493-503): place each additional
variable into the first `EMPTY` slot at or after the running `slot` pointer
(`slot + |takeWhile (≠ EMPTY) (drop slot res)|` is that slot), appending when
none remains. -/
def fill_additional : List Nat → Nat → List Nat → List Nat
  | res, _, [] => res
  | res, slot, x :: xs =>
    if slot + ((res.drop slot).takeWhile (fun v => v != EMPTY)).length < res.length then
      fill_additional
        (res.set (slot + ((res.drop slot).takeWhile (fun v => v != EMPTY)).length) x)
        (slot + ((res.drop slot).takeWhile (fun v => v != EMPTY)).length) xs
    else
      fill_additional (res ++ [x])
        (slot + ((res.drop slot).takeWhile (fun v => v != EMPTY)).length) xs

/-- The contents of the `merge_layouts` result before the final padding:
groups placed in sorted order, then the additional variables filled in. -/
def merge_pre (s : List (List Nat)) (additional : List Nat) : List Nat :=
  fill_additional (place_all ((sorted_order s).map (fun i => s.getD i [])) []) 0 additional

/-- Transcribes `merge_layouts` (lines 433-511).  The up-front capacity
computation and the two `panic!` assertions (power-of-two group sizes,
`|res| % |pg| == 0`) have no effect on the produced value when the
preconditions hold; the theorems below prove the second assertion's
invariant rather than branching on it. -/
def merge_layouts (s : List (List Nat)) (additional : List Nat) : List Nat :=
  merge_pre s additional ++
    List.replicate (next_power_of_two (merge_pre s additional).length -
      (merge_pre s additional).length) EMPTY

/-- A sub-layout entry of a sparse layout (`SubLayout`). -/
structure SubLayout where
  id : Nat
  offset : Nat
  insn_id : Nat
deriving DecidableEq

/-- The body of a finalized layout (`LayerLayoutInner`); the sparse placement
map is represented by its entry list. -/
inductive LayerLayoutInner where
  | Sparse (placement : List (Nat × Nat)) (sub_layout : List SubLayout)
  | Dense (placement : List Nat)
deriving DecidableEq

/-- A finalized layer layout (`LayerLayout`). -/
structure LayerLayout where
  circuit_id : Nat
  layer : Int
  size : Nat
  inner : LayerLayoutInner
deriving DecidableEq

/-- Transcribes `solve_layer_layout_hint_relay` (lines 240-253) as a function
of the size `m` of the circuit's `lc_hint` variable pool: the dense layout
obtained by merging no groups with the additional variables `0, …, m−1`. -/
def solve_layer_layout_hint_relay (circuit_id m : Nat) : LayerLayout :=
  let placement := merge_layouts [] (List.range m)
  ⟨circuit_id, -1, placement.length, .Dense placement⟩

/-- Transcribes the dense return of `solve_layer_layout_normal`
(lines 354-364) as a function of the merge inputs of the root placement
group: the bottom-up merge makes `placements[0]` a `merge_layouts` output,
and the layout's size is its length. -/
def solve_layer_layout_dense (circuit_id : Nat) (layer : Int)
    (s : List (List Nat)) (additional : List Nat) : LayerLayout :=
  let placement := merge_layouts s additional
  ⟨circuit_id, layer, placement.length, .Dense placement⟩

/-- One middle sub-circuit of the sparse path, with its solved layout pool
handle, that layout's size, and the owning instruction id. -/
structure MiddleEntry where
  layout_id : Nat
  size : Nat
  insn_id : Nat
deriving DecidableEq

/-- The sparse-map entries contributed by the root placement (lines 400-405):
every non-`EMPTY` slot `j` of `placements[0]` becomes `(cur + j, value)`. -/
def sparse_entries (placement0 : List Nat) (cur : Nat) : List (Nat × Nat) :=
  (List.range placement0.length).filterMap fun j =>
    if placement0.getD j EMPTY ≠ EMPTY then some (cur + j, placement0.getD j EMPTY) else none

/-- Transcribes the sparse assembly loop of `solve_layer_layout_normal`
(lines 379-417): sort `[root, middles…]` by descending size with index
tiebreak, then place them at consecutive offsets, skipping the root when its
placement has no non-`EMPTY` slot.  Returns the sparse placement entries,
the sub-layouts, and the total extent `cur`. -/
def assemble_sparse (placement0 : List Nat) (middles : List MiddleEntry) :
    List (Nat × Nat) × List SubLayout × Nat :=
  let sizes : List Nat := placement0.length :: middles.map (fun m => m.size)
  let order := List.insertionSort (desc_idx_le (fun i => sizes.getD i 0))
    (List.range sizes.length)
  order.foldl
    (fun acc i =>
      if i = 0 then
        if placement0.all (fun v => v == EMPTY) then acc
        else (acc.1 ++ sparse_entries placement0 acc.2.2, acc.2.1, acc.2.2 + placement0.length)
      else
        (acc.1,
          acc.2.1 ++ [⟨(middles.getD (i - 1) ⟨0, 0, 0⟩).layout_id, acc.2.2,
            (middles.getD (i - 1) ⟨0, 0, 0⟩).insn_id⟩],
          acc.2.2 + (middles.getD (i - 1) ⟨0, 0, 0⟩).size))
    ([], [], 0)

/-- Transcribes the sparse return of `solve_layer_layout_normal`
(lines 418-429): size is the next power of two of the total extent. -/
def solve_layer_layout_sparse (circuit_id : Nat) (layer : Int)
    (placement0 : List Nat) (middles : List MiddleEntry) : LayerLayout :=
  let a := assemble_sparse placement0 middles
  ⟨circuit_id, layer, next_power_of_two a.2.2, .Sparse a.1 a.2.1⟩

/-- The number of distinct non-`EMPTY` variable entries of a layout's
placement. -/
def LayerLayout.distinct_non_empty : LayerLayout → Nat
  | ⟨_, _, _, .Dense p⟩ => ((p.filter (fun v => v != EMPTY)).dedup).length
  | ⟨_, _, _, .Sparse pl _⟩ => ((pl.map (fun e => e.2)).dedup).length

/-! ## Placement-group construction (`prepare_layer_layout_context`) -/

/-- A placement request (`PlacementRequest`); the derived Rust `Ord` is
lexicographic on `(insn_id, input_ids)`. -/
structure PlacementRequest where
  insn_id : Nat
  input_ids : List Nat
deriving DecidableEq

/-- The derived lexicographic order on placement requests. -/
def req_le (r1 r2 : PlacementRequest) : Prop :=
  r1.insn_id < r2.insn_id ∨ (r1.insn_id = r2.insn_id ∧ ¬ r2.input_ids < r1.input_ids)

instance req_le_dec : DecidableRel req_le := fun r1 r2 =>
  inferInstanceAs (Decidable (r1.insn_id < r2.insn_id ∨
    (r1.insn_id = r2.insn_id ∧ ¬ r2.input_ids < r1.input_ids)))

/-- Transcribes the greedy group-creation step of
`prepare_layer_layout_context` (lines 186-220) for a single request over the
state `(placement, parent)`.  `prev` is `prev_circuit_insn_ids.get`, and
`num_out` is `prev_circuit_num_out`.  `pl_cnt.len() == 1` is rendered as
"inputs non-empty and all placements equal"; the `pc_cnt` check counts, with
multiplicity, the request inputs produced by each referenced predecessor and
compares against the predecessor's recorded output count.  Under the
creation condition the `parent` picked by the Rust key loop is the unique
placement value, i.e. that of the first input. -/
def placement_step (prev : Nat → Option Nat) (num_out : Nat → Nat)
    (st : (Nat → Nat) × List Nat) (req : PlacementRequest) : (Nat → Nat) × List Nat :=
  let same_group : Bool :=
    match req.input_ids with
    | [] => false
    | x :: xs => xs.all (fun y => st.1 y == st.1 x)
  let pc_ok : Bool := req.input_ids.all fun x =>
    match prev x with
    | none => true
    | some pc => req.input_ids.countP (fun z => prev z == some pc) == num_out pc
  if same_group && pc_ok then
    (fun x => if x ∈ req.input_ids then st.2.length else st.1 x,
      st.2 ++ [st.1 (req.input_ids.headD 0)])
  else st

/-- Transcribes the per-layer request processing (lines 184-220): sort the
requests lexicographically, then apply the greedy step in order. -/
def build_placement (prev : Nat → Option Nat) (num_out : Nat → Nat)
    (reqs : List PlacementRequest) (st : (Nat → Nat) × List Nat) : (Nat → Nat) × List Nat :=
  (List.insertionSort req_le reqs).foldl (placement_step prev num_out) st

/-! ## Arithmetic lemmas about `next_power_of_two` -/

/-- A natural number is a power of two. -/
def IsPow2 (n : Nat) : Prop := ∃ k, n = 2 ^ k

theorem next_power_of_two_go_pow2 (fuel n : Nat) :
    ∀ k, IsPow2 (next_power_of_two_go fuel n (2 ^ k)) := by
  induction fuel with
  | zero => intro k; exact ⟨k, rfl⟩
  | succ fuel ih =>
    intro k
    unfold next_power_of_two_go
    split
    · exact ⟨k, rfl⟩
    · have h2 : 2 * 2 ^ k = 2 ^ (k + 1) := by
        rw [pow_succ]
        ring
      rw [h2]
      exact ih (k + 1)

theorem next_power_of_two_pow2 (n : Nat) : IsPow2 (next_power_of_two n) := by
  have := next_power_of_two_go_pow2 n n 0
  simpa [next_power_of_two] using this

theorem next_power_of_two_go_ge (n : Nat) :
    ∀ (fuel acc : Nat), n ≤ acc * 2 ^ fuel → n ≤ next_power_of_two_go fuel n acc := by
  intro fuel
  induction fuel with
  | zero => intro acc h; simpa [next_power_of_two_go] using h
  | succ fuel ih =>
    intro acc h
    unfold next_power_of_two_go
    split
    · assumption
    · apply ih
      calc n ≤ acc * 2 ^ (fuel + 1) := h
        _ = 2 * acc * 2 ^ fuel := by ring

theorem next_power_of_two_ge (n : Nat) : n ≤ next_power_of_two n := by
  apply next_power_of_two_go_ge
  have := Nat.lt_two_pow n
  omega

theorem next_power_of_two_go_ge_acc (n : Nat) :
    ∀ (fuel acc : Nat), acc ≤ next_power_of_two_go fuel n acc := by
  intro fuel
  induction fuel with
  | zero => intro acc; simp [next_power_of_two_go]
  | succ fuel ih =>
    intro acc
    unfold next_power_of_two_go
    split
    · exact le_refl acc
    · exact le_trans (by omega) (ih (2 * acc))

theorem next_power_of_two_pos (n : Nat) : 1 ≤ next_power_of_two n :=
  next_power_of_two_go_ge_acc n n 1

/-! ## Lemmas about `overlay`, `place_group`, `place_all` -/

theorem overlay_length : ∀ (pg res : List Nat) (i : Nat),
    (overlay res pg i).length = res.length := by
  intro pg
  induction pg with
  | nil => intro res i; rfl
  | cons p ps ih =>
    intro res i
    unfold overlay
    rw [ih]
    split <;> simp

theorem getD_set_ne (l : List Nat) (i k v d : Nat) (h : i ≠ k) :
    (l.set i v).getD k d = l.getD k d := by
  rw [List.getD_eq_getElem?_getD, List.getD_eq_getElem?_getD, List.getElem?_set_ne h]

theorem getD_set_self (l : List Nat) (i v d : Nat) (h : i < l.length) :
    (l.set i v).getD i d = v := by
  rw [List.getD_eq_getElem?_getD, List.getElem?_set_self h]
  rfl

theorem overlay_getD_outside : ∀ (pg res : List Nat) (i k : Nat),
    (k < i ∨ i + pg.length ≤ k) → (overlay res pg i).getD k EMPTY = res.getD k EMPTY := by
  intro pg
  induction pg with
  | nil => intro res i k _; rfl
  | cons p ps ih =>
    intro res i k hk
    unfold overlay
    rw [ih]
    · split
      · apply getD_set_ne
        simp at hk
        omega
      · rfl
    · simp at hk ⊢
      omega

theorem overlay_getD_inside : ∀ (pg res : List Nat) (i : Nat),
    i + pg.length ≤ res.length → ∀ j, j < pg.length →
    (overlay res pg i).getD (i + j) EMPTY =
      if pg.getD j EMPTY ≠ EMPTY then pg.getD j EMPTY else res.getD (i + j) EMPTY := by
  intro pg
  induction pg with
  | nil => intro res i _ j hj; simp at hj
  | cons p ps ih =>
    intro res i hlen j hj
    unfold overlay
    match j with
    | 0 =>
      rw [overlay_getD_outside ps _ (i + 1) (i + 0) (by omega)]
      simp only [List.getD_cons_zero]
      split
      · apply getD_set_self
        simp at hlen
        omega
      · rfl
    | j' + 1 =>
      have harr : i + (j' + 1) = (i + 1) + j' := by omega
      rw [harr]
      rw [ih _ (i + 1) (by split <;> simp at hlen ⊢ <;> omega) j' (by simp at hj; omega)]
      have hne : (if p ≠ EMPTY then res.set i p else res).getD ((i + 1) + j') EMPTY =
          res.getD ((i + 1) + j') EMPTY := by
        split
        · apply getD_set_ne
          omega
        · rfl
      rw [hne]
      simp only [List.getD_cons_succ]

/-- Monotone extension: `r2` is at least as long as `r1` and agrees with it on
every occupied slot. -/
def Preserves (r1 r2 : List Nat) : Prop :=
  r1.length ≤ r2.length ∧
    ∀ k, k < r1.length → r1.getD k EMPTY ≠ EMPTY → r2.getD k EMPTY = r1.getD k EMPTY

theorem Preserves.refl (r : List Nat) : Preserves r r :=
  ⟨le_refl _, fun _ _ _ => rfl⟩

theorem Preserves.trans {r1 r2 r3 : List Nat} (h1 : Preserves r1 r2) (h2 : Preserves r2 r3) :
    Preserves r1 r3 := by
  refine ⟨le_trans h1.1 h2.1, fun k hk hne => ?_⟩
  have e1 := h1.2 k hk hne
  have e2 := h2.2 k (lt_of_lt_of_le hk h1.1) (by rw [e1]; exact hne)
  rw [e2, e1]

/-- Group `g` is stored contiguously in `res` at offset `o`, a multiple of its
length, with every non-`EMPTY` entry present. -/
def PlacedAt (res g : List Nat) (o : Nat) : Prop :=
  o % g.length = 0 ∧ o + g.length ≤ res.length ∧
    ∀ j, j < g.length → g.getD j EMPTY ≠ EMPTY → res.getD (o + j) EMPTY = g.getD j EMPTY

theorem PlacedAt.mono {r1 r2 g : List Nat} {o : Nat} (hp : Preserves r1 r2)
    (h : PlacedAt r1 g o) : PlacedAt r2 g o := by
  refine ⟨h.1, le_trans h.2.1 hp.1, fun j hj hne => ?_⟩
  have e := h.2.2 j hj hne
  have := hp.2 (o + j) (by have := h.2.1; omega) (by rw [e]; exact hne)
  rw [this, e]

theorem can_place_spec {res pg : List Nat} {i : Nat} (h : can_place res pg i = true) :
    ∀ j, j < pg.length → res.getD (i + j) EMPTY = EMPTY ∨ pg.getD j EMPTY = EMPTY := by
  intro j hj
  unfold can_place at h
  rw [List.all_eq_true] at h
  have := h j (List.mem_range.mpr hj)
  simpa using this

theorem place_group_spec (res pg : List Nat) (hne : pg ≠ []) (hdvd : pg.length ∣ res.length) :
    Preserves res (place_group res pg) ∧ (∃ o, PlacedAt (place_group res pg) pg o) ∧
      ((place_group res pg).length = res.length ∨
        (place_group res pg).length = res.length + pg.length) := by
  have hpos : 0 < pg.length := List.length_pos.mpr hne
  unfold place_group
  cases hfind : ((List.range (res.length / pg.length)).map (fun t => t * pg.length)).find?
      (can_place res pg) with
  | none =>
    refine ⟨⟨by simp, fun k hk _ => List.getD_append _ _ _ _ hk⟩, ⟨res.length, ?_, by simp, ?_⟩, ?_⟩
    · obtain ⟨c, hc⟩ := hdvd
      rw [hc]
      exact Nat.mul_mod_right pg.length c
    · intro j hj hne2
      rw [List.getD_eq_getElem?_getD, List.getElem?_append_right (by omega)]
      have harr : res.length + j - res.length = j := by omega
      rw [harr, ← List.getD_eq_getElem?_getD]
    · simp
  | some i =>
    have hcp := List.find?_some hfind
    have hmem := List.mem_of_find?_eq_some hfind
    simp only [List.mem_map, List.mem_range] at hmem
    obtain ⟨t, ht, rfl⟩ := hmem
    have hbound : t * pg.length + pg.length ≤ res.length := by
      have h1 : (t + 1) * pg.length ≤ res.length / pg.length * pg.length :=
        Nat.mul_le_mul_right _ (by omega)
      rw [Nat.div_mul_cancel hdvd] at h1
      calc t * pg.length + pg.length = (t + 1) * pg.length := by ring
        _ ≤ res.length := h1
    refine ⟨⟨by rw [overlay_length], fun k hk hne2 => ?_⟩,
      ⟨t * pg.length, Nat.mul_mod_left t pg.length, by rw [overlay_length]; exact hbound,
        fun j hj hne2 => ?_⟩, Or.inl (overlay_length pg res _)⟩
    · by_cases hin : t * pg.length ≤ k ∧ k < t * pg.length + pg.length
      · obtain ⟨h1, h2⟩ := hin
        have hj : k = t * pg.length + (k - t * pg.length) := by omega
        rw [hj, overlay_getD_inside pg res _ hbound _ (by omega)]
        rcases can_place_spec hcp (k - t * pg.length) (by omega) with h | h
        · rw [← hj] at h
          exact absurd h hne2
        · rw [if_neg (by rw [h]; simp), ← hj]
      · rw [overlay_getD_outside pg res _ k (by omega)]
    · rw [overlay_getD_inside pg res _ hbound j hj, if_pos hne2]

theorem place_all_spec : ∀ (gs : List (List Nat)) (res : List Nat),
    List.Pairwise (fun g1 g2 => g2.length ≤ g1.length) gs →
    (∀ g ∈ gs, IsPow2 g.length) →
    (∀ g ∈ gs, g.length ∣ res.length) →
    Preserves res (place_all gs res) ∧ ∀ g ∈ gs, ∃ o, PlacedAt (place_all gs res) g o := by
  intro gs
  induction gs with
  | nil => intro res _ _ _; exact ⟨Preserves.refl res, by simp⟩
  | cons g rest ih =>
    intro res hpair hpow hdvd
    simp only [place_all]
    have hgpow := hpow g (by simp)
    have hgne : g ≠ [] := by
      obtain ⟨k, hk⟩ := hgpow
      have hp : 0 < g.length := by rw [hk]; positivity
      exact List.length_pos.mp hp
    have hspec := place_group_spec res g hgne (hdvd g (by simp))
    have hdvd2 : ∀ g2 ∈ rest, g2.length ∣ (place_group res g).length := by
      intro g2 hg2
      obtain ⟨a, ha⟩ := hpow g2 (by simp [hg2])
      obtain ⟨b, hb⟩ := hgpow
      have hle : g2.length ≤ g.length := (List.pairwise_cons.mp hpair).1 g2 hg2
      have hdvdg : g2.length ∣ g.length := by
        rw [ha, hb] at hle ⊢
        exact pow_dvd_pow 2 ((Nat.pow_le_pow_iff_right (by omega)).mp hle)
      rcases hspec.2.2 with hl | hl <;> rw [hl]
      · exact hdvd g2 (by simp [hg2])
      · exact Nat.dvd_add (hdvd g2 (by simp [hg2])) hdvdg
    have hres := ih (place_group res g) (List.pairwise_cons.mp hpair).2
      (fun g2 hg2 => hpow g2 (by simp [hg2])) hdvd2
    refine ⟨hspec.1.trans hres.1, ?_⟩
    intro g2 hg2
    rcases List.mem_cons.mp hg2 with rfl | hg2
    · obtain ⟨o, ho⟩ := hspec.2.1
      exact ⟨o, PlacedAt.mono hres.1 ho⟩
    · exact hres.2 g2 hg2

/-! ## Lemmas about `fill_additional` and `merge_layouts` -/

theorem takeWhile_boundary (p : Nat → Bool) : ∀ (l : List Nat),
    (l.takeWhile p).length < l.length → p (l.getD (l.takeWhile p).length 0) = false := by
  intro l
  induction l with
  | nil => intro h; simp at h
  | cons a l ih =>
    intro h
    by_cases hp : p a
    · rw [List.takeWhile_cons_of_pos hp] at h ⊢
      simp only [List.length_cons, List.getD_cons_succ]
      exact ih (by simpa using h)
    · rw [List.takeWhile_cons_of_neg hp]
      simpa using hp

theorem takeWhile_all_eq (p : Nat → Bool) : ∀ (l : List Nat),
    (∀ y ∈ l, p y = true) → l.takeWhile p = l := by
  intro l
  induction l with
  | nil => intro _; rfl
  | cons a l ih =>
    intro h
    rw [List.takeWhile_cons_of_pos (h a (by simp))]
    rw [ih (fun y hy => h y (by simp [hy]))]

theorem fill_slot_empty (res : List Nat) (slot : Nat)
    (hlt : slot + ((res.drop slot).takeWhile (fun v => v != EMPTY)).length < res.length) :
    res.getD (slot + ((res.drop slot).takeWhile (fun v => v != EMPTY)).length) EMPTY = EMPTY := by
  have hdl : (res.drop slot).length = res.length - slot := List.length_drop _ _
  have hlt2 : ((res.drop slot).takeWhile (fun v => v != EMPTY)).length <
      (res.drop slot).length := by omega
  have hb := takeWhile_boundary (fun v => v != EMPTY) (res.drop slot) hlt2
  have hval : (res.drop slot).getD ((res.drop slot).takeWhile (fun v => v != EMPTY)).length 0 =
      res.getD (slot + ((res.drop slot).takeWhile (fun v => v != EMPTY)).length) 0 := by
    rw [List.getD_eq_getElem?_getD, List.getD_eq_getElem?_getD, List.getElem?_drop]
  rw [hval] at hb
  have h0 : res.getD (slot + ((res.drop slot).takeWhile (fun v => v != EMPTY)).length) 0 =
      EMPTY := by simpa using hb
  rw [List.getD_eq_getElem _ _ hlt] at h0 ⊢
  exact h0

theorem fill_additional_preserves : ∀ (xs res : List Nat) (slot : Nat),
    Preserves res (fill_additional res slot xs) := by
  intro xs
  induction xs with
  | nil => intro res slot; exact Preserves.refl res
  | cons x xs ih =>
    intro res slot
    unfold fill_additional
    split
    · rename_i hlt
      refine Preserves.trans ⟨by simp, fun k hk hne => ?_⟩ (ih _ _)
      by_cases hks : slot + ((res.drop slot).takeWhile (fun v => v != EMPTY)).length = k
      · exact absurd (hks ▸ fill_slot_empty res slot hlt) hne
      · exact getD_set_ne res _ k x EMPTY hks
    · exact Preserves.trans ⟨by simp, fun k hk _ => List.getD_append _ _ _ _ hk⟩ (ih _ _)

theorem fill_additional_all_full : ∀ (xs res : List Nat) (slot : Nat),
    slot ≤ res.length →
    (∀ k, slot ≤ k → k < res.length → res.getD k EMPTY ≠ EMPTY) →
    (∀ x ∈ xs, x ≠ EMPTY) →
    fill_additional res slot xs = res ++ xs := by
  intro xs
  induction xs with
  | nil => intro res slot _ _ _; simp [fill_additional]
  | cons x xs ih =>
    intro res slot hsl hfull hxs
    have htw : (res.drop slot).takeWhile (fun v => v != EMPTY) = res.drop slot := by
      apply takeWhile_all_eq
      intro y hy
      obtain ⟨m, hm, hym⟩ := List.mem_iff_getElem.mp hy
      have hmlen : slot + m < res.length := by
        have := List.length_drop slot res
        omega
      have hyv : y = res.getD (slot + m) EMPTY := by
        rw [← hym, List.getD_eq_getElem _ _ hmlen]
        exact List.getElem_drop res
      have := hfull (slot + m) (by omega) hmlen
      rw [← hyv] at this
      simpa using this
    unfold fill_additional
    rw [htw, List.length_drop]
    have hs2 : slot + (res.length - slot) = res.length := by omega
    rw [hs2, if_neg (by omega)]
    rw [ih (res ++ [x]) res.length (by simp) ?_ (fun z hz => hxs z (by simp [hz]))]
    · simp
    · intro k hk1 hk2
      simp only [List.length_append, List.length_singleton] at hk2
      have hkeq : k = res.length := by omega
      subst hkeq
      rw [List.getD_eq_getElem?_getD, List.getElem?_append_right (le_refl _)]
      simpa using hxs x (by simp)

theorem merge_layouts_length (s : List (List Nat)) (a : List Nat) :
    (merge_layouts s a).length = next_power_of_two (merge_pre s a).length := by
  unfold merge_layouts
  have := next_power_of_two_ge (merge_pre s a).length
  simp only [List.length_append, List.length_replicate]
  omega

theorem merge_layouts_pow2 (s : List (List Nat)) (a : List Nat) :
    IsPow2 (merge_layouts s a).length := by
  rw [merge_layouts_length]
  exact next_power_of_two_pow2 _

theorem merge_layouts_preserves_pre (s : List (List Nat)) (a : List Nat) :
    Preserves (merge_pre s a) (merge_layouts s a) := by
  unfold merge_layouts
  exact ⟨by simp, fun k hk _ => List.getD_append _ _ _ _ hk⟩

theorem sorted_order_pairwise (s : List (List Nat)) :
    List.Pairwise (fun g1 g2 => g2.length ≤ g1.length)
      ((sorted_order s).map (fun i => s.getD i [])) := by
  have hs := List.sorted_insertionSort (desc_idx_le (fun i => (s.getD i []).length))
    ((List.range s.length).filter (fun i => !(s.getD i []).isEmpty))
  refine List.Pairwise.map _ (fun a b hab => ?_) hs
  rcases hab with h | ⟨h, _⟩
  · exact le_of_lt h
  · exact le_of_eq h.symm

theorem mem_sorted_order {s : List (List Nat)} {i : Nat} (hi : i < s.length)
    (hne : s.getD i [] ≠ []) : i ∈ sorted_order s := by
  unfold sorted_order
  rw [(List.perm_insertionSort _ _).mem_iff, List.mem_filter]
  exact ⟨List.mem_range.mpr hi, by simpa using hne⟩

theorem sorted_order_mem_lt {s : List (List Nat)} {j : Nat} (hj : j ∈ sorted_order s) :
    j < s.length := by
  unfold sorted_order at hj
  rw [(List.perm_insertionSort _ _).mem_iff, List.mem_filter] at hj
  exact List.mem_range.mp hj.1

/-- Claim C2: for every call of `merge_layouts` whose groups all have
power-of-two length, the returned placement array has power-of-two length,
every non-empty input group is stored contiguously at an offset that is a
multiple of its length, and the result is a deterministic function of the
inputs. -/
theorem merge_layouts_spec (s : List (List Nat)) (additional : List Nat)
    (hpow : ∀ g ∈ s, IsPow2 g.length) :
    IsPow2 (merge_layouts s additional).length ∧
      (∀ i, i < s.length → s.getD i [] ≠ [] →
        ∃ o, PlacedAt (merge_layouts s additional) (s.getD i []) o) ∧
      ∀ s2 a2, s = s2 → additional = a2 →
        merge_layouts s additional = merge_layouts s2 a2 := by
  refine ⟨merge_layouts_pow2 s additional, ?_, by intro s2 a2 h1 h2; rw [h1, h2]⟩
  intro i hi hne
  have hmem : s.getD i [] ∈ (sorted_order s).map (fun j => s.getD j []) :=
    List.mem_map.mpr ⟨i, mem_sorted_order hi hne, rfl⟩
  have hpow2 : ∀ g ∈ (sorted_order s).map (fun j => s.getD j []), IsPow2 g.length := by
    intro g hg
    obtain ⟨j, hj, rfl⟩ := List.mem_map.mp hg
    have hjr : j < s.length := sorted_order_mem_lt hj
    rw [List.getD_eq_getElem _ _ hjr]
    exact hpow _ (List.getElem_mem hjr)
  have hspec := place_all_spec ((sorted_order s).map (fun j => s.getD j [])) []
    (sorted_order_pairwise s) hpow2 (by intro g _; simp)
  obtain ⟨o, ho⟩ := hspec.2 _ hmem
  refine ⟨o, PlacedAt.mono ?_ ho⟩
  exact Preserves.trans (fill_additional_preserves additional _ 0)
    (merge_layouts_preserves_pre s additional)

/-- Witness for C2 at a concrete call: groups `[7, EMPTY]` and `[8]` with one
additional variable `9`. -/
theorem merge_layouts_spec_witness :
    (∀ g ∈ [[7, EMPTY], [8]], IsPow2 g.length) ∧
      (IsPow2 (merge_layouts [[7, EMPTY], [8]] [9]).length ∧
        (∀ i, i < ([[7, EMPTY], [8]] : List (List Nat)).length →
          ([[7, EMPTY], [8]] : List (List Nat)).getD i [] ≠ [] →
          ∃ o, PlacedAt (merge_layouts [[7, EMPTY], [8]] [9])
            (([[7, EMPTY], [8]] : List (List Nat)).getD i []) o) ∧
        ∀ s2 a2, [[7, EMPTY], [8]] = s2 → [9] = a2 →
          merge_layouts [[7, EMPTY], [8]] [9] = merge_layouts s2 a2) :=
  have hpow : ∀ g ∈ [[7, EMPTY], [8]], IsPow2 g.length := by
    intro g hg
    fin_cases hg
    · exact ⟨1, rfl⟩
    · exact ⟨0, rfl⟩
  ⟨hpow, merge_layouts_spec [[7, EMPTY], [8]] [9] hpow⟩

/-! ## The layout size invariant (C6) -/

theorem foldl_invariant {α β : Type} (P : β → Prop) (f : β → α → β)
    (hstep : ∀ acc a, P acc → P (f acc a)) :
    ∀ (l : List α) (acc : β), P acc → P (l.foldl f acc) := by
  intro l
  induction l with
  | nil => intro acc h; exact h
  | cons a l ih => intro acc h; exact ih _ (hstep acc a h)

theorem sparse_entries_length_le (p0 : List Nat) (cur : Nat) :
    (sparse_entries p0 cur).length ≤ p0.length := by
  unfold sparse_entries
  exact le_trans (List.length_filterMap_le _ _) (by simp)

theorem assemble_sparse_entries_le (p0 : List Nat) (mids : List MiddleEntry) :
    (assemble_sparse p0 mids).1.length ≤ (assemble_sparse p0 mids).2.2 := by
  unfold assemble_sparse
  apply foldl_invariant
    (fun acc : List (Nat × Nat) × List SubLayout × Nat => acc.1.length ≤ acc.2.2)
  · intro acc a hP
    dsimp only
    split
    · split
      · exact hP
      · simp only [List.length_append]
        have := sparse_entries_length_le p0 acc.2.2
        omega
    · dsimp only
      omega
  · simp

theorem dedup_filter_le (p : List Nat) :
    ((p.filter (fun v => v != EMPTY)).dedup).length ≤ p.length :=
  le_trans (List.Sublist.length_le (List.dedup_sublist _)) (List.length_filter_le _ _)

/-- Claim C6: every layout produced by the three return paths of
`solve_layer_layout` (hint relay, dense, sparse) has a power-of-two `size`,
and `size` is at least the number of distinct non-`EMPTY` variable entries in
its placement. -/
theorem layer_layout_size_invariant :
    (∀ cid m, IsPow2 (solve_layer_layout_hint_relay cid m).size ∧
        (solve_layer_layout_hint_relay cid m).distinct_non_empty ≤
          (solve_layer_layout_hint_relay cid m).size) ∧
      (∀ cid layer s a, IsPow2 (solve_layer_layout_dense cid layer s a).size ∧
        (solve_layer_layout_dense cid layer s a).distinct_non_empty ≤
          (solve_layer_layout_dense cid layer s a).size) ∧
      ∀ cid layer p0 mids, IsPow2 (solve_layer_layout_sparse cid layer p0 mids).size ∧
        (solve_layer_layout_sparse cid layer p0 mids).distinct_non_empty ≤
          (solve_layer_layout_sparse cid layer p0 mids).size := by
  refine ⟨fun cid m => ⟨?_, ?_⟩, fun cid layer s a => ⟨?_, ?_⟩, fun cid layer p0 mids => ⟨?_, ?_⟩⟩
  · exact merge_layouts_pow2 [] (List.range m)
  · exact dedup_filter_le _
  · exact merge_layouts_pow2 s a
  · exact dedup_filter_le _
  · exact next_power_of_two_pow2 _
  · show (((assemble_sparse p0 mids).1.map (fun e => e.2)).dedup).length ≤
      next_power_of_two (assemble_sparse p0 mids).2.2
    calc (((assemble_sparse p0 mids).1.map (fun e => e.2)).dedup).length
        ≤ ((assemble_sparse p0 mids).1.map (fun e => e.2)).length :=
          List.Sublist.length_le (List.dedup_sublist _)
      _ = (assemble_sparse p0 mids).1.length := List.length_map _ _
      _ ≤ (assemble_sparse p0 mids).2.2 := assemble_sparse_entries_le p0 mids
      _ ≤ next_power_of_two (assemble_sparse p0 mids).2.2 := next_power_of_two_ge _

/-! ## The hint-relay layout (C7) -/

theorem merge_layouts_range (m : Nat) (hm : m ≤ EMPTY) :
    merge_layouts [] (List.range m) =
      List.range m ++ List.replicate (next_power_of_two m - m) EMPTY := by
  have hpre : merge_pre [] (List.range m) = List.range m := by
    unfold merge_pre
    show fill_additional (place_all ((sorted_order []).map fun i => ([] : List (List Nat)).getD i [])
      []) 0 (List.range m) = List.range m
    have hsort : sorted_order [] = [] := rfl
    rw [hsort]
    simp only [List.map_nil]
    show fill_additional [] 0 (List.range m) = List.range m
    rw [fill_additional_all_full (List.range m) [] 0 (by simp)
      (by intro k _ hk; simp at hk) ?_]
    · simp
    · intro x hx
      have hxm := List.mem_range.mp hx
      exact Nat.ne_of_lt (lt_of_lt_of_le hxm hm)
  unfold merge_layouts
  rw [hpre]
  simp

/-- Claim C7 (amended): the hint-relay layout of a circuit whose hint-relay
variable pool has `m` entries is the identity `[0, …, m−1]` padded with
`EMPTY` up to the next power of two, with `size` that padded length. -/
theorem solve_layer_layout_hint_relay_spec (cid m : Nat) (hm : m ≤ EMPTY) :
    solve_layer_layout_hint_relay cid m =
      ⟨cid, -1, next_power_of_two m,
        .Dense (List.range m ++ List.replicate (next_power_of_two m - m) EMPTY)⟩ := by
  show (⟨cid, -1, (merge_layouts [] (List.range m)).length,
    .Dense (merge_layouts [] (List.range m))⟩ : LayerLayout) = _
  rw [merge_layouts_range m hm]
  have hlen : (List.range m ++ List.replicate (next_power_of_two m - m) EMPTY).length =
      next_power_of_two m := by
    have := next_power_of_two_ge m
    simp
    omega
  rw [hlen]

/-- Witness for the amended C7 at `m = 3`. -/
theorem solve_layer_layout_hint_relay_spec_witness :
    3 ≤ EMPTY ∧ solve_layer_layout_hint_relay 0 3 =
      ⟨0, -1, next_power_of_two 3,
        .Dense (List.range 3 ++ List.replicate (next_power_of_two 3 - 3) EMPTY)⟩ :=
  ⟨by decide, solve_layer_layout_hint_relay_spec 0 3 (by decide)⟩

/-- Counterexample to C7 as stated: for a hint-relay pool of 3 variables the
placement is not exactly the identity sequence `[0, 1, 2]`; it is padded with
`EMPTY` to length 4. -/
theorem hint_relay_identity_cex :
    (solve_layer_layout_hint_relay 0 3).inner ≠ LayerLayoutInner.Dense (List.range 3) := by
  decide

/-! ## Placement-group construction (C4) -/

/-- Claim C4 (amended): requests are processed in ascending lexicographic
order, and the greedy step creates a new group iff the request's inputs are
non-empty and currently share one placement group, and for every predecessor
id referenced by an input, the number of request inputs (counted with
multiplicity) produced by that predecessor equals the predecessor's recorded
output count; the new group's parent is the common group and the inputs are
reassigned to it. -/
theorem placement_step_spec (prev : Nat → Option Nat) (num_out : Nat → Nat)
    (pl : Nat → Nat) (par : List Nat) (req : PlacementRequest) :
    ((req.input_ids ≠ [] ∧
        (∀ x ∈ req.input_ids, pl x = pl (req.input_ids.headD 0)) ∧
        ∀ x ∈ req.input_ids, ∀ pc, prev x = some pc →
          req.input_ids.countP (fun z => prev z == some pc) = num_out pc) →
      placement_step prev num_out (pl, par) req =
        (fun x => if x ∈ req.input_ids then par.length else pl x,
          par ++ [pl (req.input_ids.headD 0)])) ∧
    ((¬ (req.input_ids ≠ [] ∧
        (∀ x ∈ req.input_ids, pl x = pl (req.input_ids.headD 0)) ∧
        ∀ x ∈ req.input_ids, ∀ pc, prev x = some pc →
          req.input_ids.countP (fun z => prev z == some pc) = num_out pc)) →
      placement_step prev num_out (pl, par) req = (pl, par)) ∧
    ∀ (reqs : List PlacementRequest) (st : (Nat → Nat) × List Nat),
      build_placement prev num_out reqs st =
        (List.insertionSort req_le reqs).foldl (placement_step prev num_out) st := by
  obtain ⟨insn, ids⟩ := req
  cases ids with
  | nil =>
    refine ⟨fun hc => absurd rfl hc.1, fun _ => ?_, fun reqs st => rfl⟩
    simp [placement_step]
  | cons x xs =>
    have hsg : (xs.all (fun y => pl y == pl x) = true) ↔
        ∀ z ∈ x :: xs, pl z = pl ((x :: xs).headD 0) := by
      rw [List.all_eq_true]
      constructor
      · intro h z hz
        rcases List.mem_cons.mp hz with rfl | hz
        · rfl
        · simpa using h z hz
      · intro h y hy
        simpa using h y (by simp [hy])
    have hpc : (((x :: xs).all fun z =>
          match prev z with
          | none => true
          | some pc => (x :: xs).countP (fun w => prev w == some pc) == num_out pc) = true) ↔
        ∀ z ∈ x :: xs, ∀ pc, prev z = some pc →
          (x :: xs).countP (fun w => prev w == some pc) = num_out pc := by
      rw [List.all_eq_true]
      constructor
      · intro h z hz pc hpz
        have hv := h z hz
        rw [hpz] at hv
        simpa using hv
      · intro h z hz
        cases hpz : prev z with
        | none => rfl
        | some pc => simpa using h z hz pc hpz
    refine ⟨fun hc => ?_, fun hc => ?_, fun reqs st => rfl⟩
    · simp only [placement_step]
      rw [if_pos]
      rw [Bool.and_eq_true]
      exact ⟨hsg.mpr hc.2.1, hpc.mpr hc.2.2⟩
    · simp only [placement_step]
      rw [if_neg]
      intro hguard
      rw [Bool.and_eq_true] at hguard
      exact hc ⟨by simp, hsg.mp hguard.1, hpc.mp hguard.2⟩

/-- A concrete predecessor map: variables 1 and 2 are the outputs of the
sub-call with instruction id 5. -/
def c4_prev : Nat → Option Nat
  | 1 => some 5
  | 2 => some 5
  | _ => none

/-- The recorded output count of that sub-call. -/
def c4_num_out : Nat → Nat
  | 5 => 2
  | _ => 0

/-- Witness for the amended C4: a request `[1, 2]` taking both outputs of
predecessor 5, all in group 0, creates a new group. -/
theorem placement_step_spec_witness :
    (([1, 2] : List Nat) ≠ [] ∧
        (∀ x ∈ ([1, 2] : List Nat), (fun _ : Nat => 0) x =
          (fun _ : Nat => 0) (([1, 2] : List Nat).headD 0)) ∧
        ∀ x ∈ ([1, 2] : List Nat), ∀ pc, c4_prev x = some pc →
          ([1, 2] : List Nat).countP (fun z => c4_prev z == some pc) = c4_num_out pc) ∧
      placement_step c4_prev c4_num_out ((fun _ => 0), [0]) ⟨7, [1, 2]⟩ =
        (fun x => if x ∈ (⟨7, [1, 2]⟩ : PlacementRequest).input_ids then
            ([0] : List Nat).length else (fun _ : Nat => 0) x,
          [0] ++ [(fun _ : Nat => 0) ((⟨7, [1, 2]⟩ : PlacementRequest).input_ids.headD 0)]) :=
  have hcond : ([1, 2] : List Nat) ≠ [] ∧
      (∀ x ∈ ([1, 2] : List Nat), (fun _ : Nat => 0) x =
        (fun _ : Nat => 0) (([1, 2] : List Nat).headD 0)) ∧
      ∀ x ∈ ([1, 2] : List Nat), ∀ pc, c4_prev x = some pc →
        ([1, 2] : List Nat).countP (fun z => c4_prev z == some pc) = c4_num_out pc := by
    refine ⟨by decide, fun x _ => rfl, fun x hx pc hpc => ?_⟩
    fin_cases hx
    · injection hpc with h
      subst h
      decide
    · injection hpc with h
      subst h
      decide
  ⟨hcond, (placement_step_spec c4_prev c4_num_out (fun _ => 0) [0] ⟨7, [1, 2]⟩).1 hcond⟩

/-- Counterexample to C4 as stated: with variables 1 and 2 both outputs of
predecessor 5 (output count 2) and a request whose input list is the
duplicated `[1, 1]`, the code creates a new group (the parent list grows),
although predecessor 5's output 2 is not present in the request, refuting the
claimed "all of that predecessor's outputs are present" condition. -/
theorem placement_group_cex :
    (placement_step c4_prev c4_num_out ((fun _ => 0), [0]) ⟨0, [1, 1]⟩).2.length = 2 ∧
      c4_prev 1 = some 5 ∧ c4_prev 2 = some 5 ∧ c4_num_out 5 = 2 ∧
      (2 : Nat) ∉ ([1, 1] : List Nat) :=
  ⟨by decide, rfl, rfl, rfl, by decide⟩

/-! ## Concrete instances over the field `ZMod 5` -/

instance : Fact (Nat.Prime 5) := ⟨by norm_num⟩

/-- A trivial unconstrained-op evaluator for the concrete instances; none of
the concrete circuits below contains an `UnconstrainedBinOp`, so the pass
never consults it. -/
def trivOpEval : UnconstrainedBinOpType → ZMod 5 → ZMod 5 → Except String (ZMod 5) :=
  fun _ _ _ => .error "unused"

/-! ## Commit handling (C5) -/

/-- Claim C5 (amended): rewriting a `Commit` instruction aborts the pass with
the Rust panic `commit is unimplemented`; it does not produce an `Err`
message. -/
theorem commit_panics {F : Type} [Field F] [DecidableEq F]
    (opEval : UnconstrainedBinOpType → F → F → Except String F)
    (b : Builder F) (x : Nat) :
    transform_in_to_out opEval b (.Commit x) = .panicked "commit is unimplemented" := rfl

/-- A root circuit containing a `Commit` instruction. -/
def commitRoot : RootCircuit (ZMod 5) := ⟨[(0, ⟨[.Commit 1], [], [], 1, 0⟩)]⟩

/-- Counterexample to C5 as stated: on a root containing `Commit` the pass
aborts via `panic!("commit is unimplemented")`, not via `Err(message)`. -/
theorem commit_not_err_cex :
    process trivOpEval commitRoot = .panicked "commit is unimplemented" ∧
      (process trivOpEval commitRoot).isErrMsg = false :=
  ⟨rfl, rfl⟩

/-! ## Semantic divergence of the Xor rewrite (C1, C3) -/

/-- A root circuit whose single instruction is `BoolBinOp{Xor, 1, 2}` over two
inputs, with the Xor result as the only output. -/
def xorRoot : RootCircuit (ZMod 5) := ⟨[(0, ⟨[.BoolBinOp 1 2 .Xor], [], [3], 2, 0⟩)]⟩

/-- The hint-normalized image of `xorRoot`. -/
def xorProcessed : OutRootCircuit (ZMod 5) :=
  match process trivOpEval xorRoot with
  | .ok rc => rc
  | _ => ⟨[]⟩

/-- Claim C1 at the failing input: `process` succeeds on `xorRoot`, the source
root evaluates to `[0]` on the inputs `[1, 1]` (boolean Xor of 1 and 1), but
the processed root evaluates to `[4]` on the same inputs, because the Xor
rewrite of `transform_in_to_out` emits the coefficient `one + one` instead of
its negation on the product term.  The divergence holds for every oracle pair
`(opEval, hintEval)`: the circuit exercises neither. -/
theorem process_eval_divergence_xor :
    ∀ (opEval : UnconstrainedBinOpType → ZMod 5 → ZMod 5 → Except String (ZMod 5))
      (hintEval : Nat → List (ZMod 5) → Nat → Option (List (ZMod 5))),
      process opEval xorRoot = .ok xorProcessed ∧
        eval_root hintEval 100 xorRoot [1, 1] = some [0] ∧
        eval_out_root hintEval 100 xorProcessed [1, 1] = some [4] ∧
        ¬ ([(4 : ZMod 5)] = [(0 : ZMod 5)]) :=
  fun _ _ => ⟨rfl, rfl, rfl, by decide⟩

/-- A root circuit computing `BoolBinOp{Xor}` of two constant ones. -/
def xorConstRoot : RootCircuit (ZMod 5) :=
  ⟨[(0, ⟨[.ConstantOrRandom (.Constant 1), .ConstantOrRandom (.Constant 1),
    .BoolBinOp 1 2 .Xor], [], [3], 0, 0⟩)]⟩

/-- The hint-normalized image of `xorConstRoot`. -/
def xorConstProcessed : OutRootCircuit (ZMod 5) :=
  match process trivOpEval xorConstRoot with
  | .ok rc => rc
  | _ => ⟨[]⟩

/-- Claim C3 at the failing input `x = y = 1`: the variable bound as the Xor
instruction's output evaluates to `(x+y) + 2·(x·y) = 4`, not to the claimed
`(x+y) − 2·(x·y) = 0`; the source coefficient on the product term is
`one + one` (hint_normalize.rs line 149), not its negation. -/
theorem xor_bound_value_bug :
    ∀ (opEval : UnconstrainedBinOpType → ZMod 5 → ZMod 5 → Except String (ZMod 5))
      (hintEval : Nat → List (ZMod 5) → Nat → Option (List (ZMod 5))),
      process opEval xorConstRoot = .ok xorConstProcessed ∧
        eval_out_root hintEval 100 xorConstProcessed [] = some [4] ∧
        (4 : ZMod 5) = (1 + 1) + 2 * (1 * 1) ∧
        (4 : ZMod 5) ≠ (1 + 1) - 2 * (1 * 1) :=
  fun _ _ => ⟨rfl, rfl, by decide, by decide⟩

/-! ## Division by a known-constant divisor (C9, C10) -/

/-- Claim C9: an unchecked `Div{x, y}` whose divisor has the tracked constant
value `yv` fails with `division by zero constant` when `yv = 0` and otherwise
rewrites to `Mul(x, const(yv⁻¹))` — one auxiliary constant instruction, the
final `Mul`, and no new constraints or marks. -/
theorem div_constant_divisor {F : Type} [Field F] [DecidableEq F]
    (opEval : UnconstrainedBinOpType → F → F → Except String F)
    (b : Builder F) (x y : Nat) (yv : F) (hconst : b.constant_value y = some yv) :
    (yv = 0 → transform_in_to_out opEval b (.Div x y false) =
      .err "division by zero constant") ∧
    (yv ≠ 0 → transform_in_to_out opEval b (.Div x y false) =
      .ok ⟨b.outInsns ++ [.ConstantOrRandom (.Constant yv⁻¹)], b.numOut + 1,
          b.constValues ++ [(b.numOut + 1, yv⁻¹)], b.asserts, b.marks⟩
        (.Mul [x, b.numOut + 1])) := by
  constructor
  · intro h0
    simp only [transform_in_to_out, hconst, if_pos h0]
  · intro hne
    simp only [transform_in_to_out, hconst, if_neg hne, Builder.push_const,
      Builder.push_insn, InsnOut.numOutputs]

/-- A builder over `ZMod 5` with variable 2 tracked as the constant 2. -/
def bW : Builder (ZMod 5) := ⟨[], 2, [(2, 2)], [], []⟩

/-- Witness for C9 at a concrete builder and instruction. -/
theorem div_constant_divisor_witness :
    bW.constant_value 2 = some 2 ∧
      (((2 : ZMod 5) = 0 → transform_in_to_out trivOpEval bW (.Div 1 2 false) =
        .err "division by zero constant") ∧
      ((2 : ZMod 5) ≠ 0 → transform_in_to_out trivOpEval bW (.Div 1 2 false) =
        .ok ⟨bW.outInsns ++ [.ConstantOrRandom (.Constant (2 : ZMod 5)⁻¹)], bW.numOut + 1,
            bW.constValues ++ [(bW.numOut + 1, (2 : ZMod 5)⁻¹)], bW.asserts, bW.marks⟩
          (.Mul [1, bW.numOut + 1]))) :=
  ⟨by decide, div_constant_divisor trivOpEval bW 1 2 2 (by decide)⟩

/-- Claim C10: a checked `Div{x, y}` whose divisor has a tracked constant
value behaves exactly as the unchecked one (the constant branch is taken
before `checked` is consulted); the hint-and-constraint path — push `1`, the
`Div` hint for the inverse, the product `y·inv`, the difference
`y·inv − 1` with its `Zero` constraint, and the final `Mul(x, inv)` — is
taken only when the divisor's value is unknown. -/
theorem div_checked_constant {F : Type} [Field F] [DecidableEq F]
    (opEval : UnconstrainedBinOpType → F → F → Except String F)
    (b : Builder F) (x y : Nat) :
    (∀ yv, b.constant_value y = some yv →
      transform_in_to_out opEval b (.Div x y true) =
        transform_in_to_out opEval b (.Div x y false)) ∧
    (b.constant_value y = none →
      transform_in_to_out opEval b (.Div x y true) =
        .ok ⟨b.outInsns ++ [.ConstantOrRandom (.Constant 1),
            .Hint BuiltinHintIds.Div.toNat [b.numOut + 1, y] 1,
            .Mul [y, b.numOut + 2],
            .LinComb ⟨[⟨1, b.numOut + 3⟩, ⟨-1, b.numOut + 1⟩], 0⟩],
          b.numOut + 4, b.constValues ++ [(b.numOut + 1, 1)],
          b.asserts ++ [b.numOut + 4], b.marks⟩
        (.Mul [x, b.numOut + 2])) := by
  constructor
  · intro yv hconst
    simp only [transform_in_to_out, hconst]
  · intro hnone
    simp only [transform_in_to_out, hnone, Builder.push_const, Builder.push_insn,
      Builder.push_mul, Builder.push_sub, Builder.assert_var, InsnOut.numOutputs,
      if_true, List.append_assoc, List.cons_append, List.nil_append]

/-- A builder over `ZMod 5` tracking no constants. -/
def bN : Builder (ZMod 5) := ⟨[], 2, [], [], []⟩

/-- Witness for C10 at a concrete builder: divisor with unknown value takes
the hint-and-constraint path. -/
theorem div_checked_constant_witness :
    bN.constant_value 2 = none ∧
      transform_in_to_out trivOpEval bN (.Div 1 2 true) =
        .ok ⟨bN.outInsns ++ [.ConstantOrRandom (.Constant 1),
            .Hint BuiltinHintIds.Div.toNat [bN.numOut + 1, 2] 1,
            .Mul [2, bN.numOut + 2],
            .LinComb ⟨[⟨1, bN.numOut + 3⟩, ⟨-1, bN.numOut + 1⟩], 0⟩],
          bN.numOut + 4, bN.constValues ++ [(bN.numOut + 1, 1)],
          bN.asserts ++ [bN.numOut + 4], bN.marks⟩
        (.Mul [1, bN.numOut + 2]) :=
  ⟨rfl, (div_checked_constant trivOpEval bN 1 2).2 rfl⟩

/-! ## Pass-through instructions (C8) -/

/-- Variables referenced by a linear combination. -/
def LinComb.varList {F : Type} (lc : LinComb F) : List Nat := lc.terms.map (fun t => t.var)

/-- Variables referenced by a source instruction. -/
def InsnIn.varList {F : Type} : InsnIn F → List Nat
  | .LinComb lc => lc.varList
  | .Mul vs => vs
  | .Div x y _ => [x, y]
  | .BoolBinOp x y _ => [x, y]
  | .IsZero x => [x]
  | .Commit x => [x]
  | .Hint _ ins _ => ins
  | .ConstantOrRandom _ => []
  | .SubCircuitCall _ ins _ => ins
  | .UnconstrainedBinOp x y _ => [x, y]
  | .UnconstrainedSelect c t f => [c, t, f]

/-- Whether the instruction is one of the five tags the pass emits
unchanged. -/
def InsnIn.isPassThrough {F : Type} : InsnIn F → Bool
  | .LinComb _ => true
  | .Mul _ => true
  | .Hint _ _ _ => true
  | .ConstantOrRandom _ => true
  | .SubCircuitCall _ _ _ => true
  | _ => false

/-- The bit-identical output image of a pass-through instruction (junk on the
other tags, which the theorems exclude). -/
def InsnIn.asOut {F : Type} : InsnIn F → InsnOut F
  | .LinComb lc => .LinComb lc
  | .Mul vs => .Mul vs
  | .Hint id ins n => .Hint id ins n
  | .ConstantOrRandom c => .ConstantOrRandom c
  | .SubCircuitCall id ins n => .SubCircuitCall id ins n
  | _ => .Mul []

theorem numOutputs_asOut {F : Type} (insn : InsnIn F) (h : insn.isPassThrough = true) :
    insn.asOut.numOutputs = insn.numOutputs := by
  cases insn <;> rfl

theorem range_getD {v n : Nat} (h : v < n) : (List.range n).getD v 0 = v := by
  rw [List.getD_eq_getElem _ _ (by simpa using h)]
  simp

theorem lincomb_replace_id {F : Type} (lc : LinComb F) (n : Nat)
    (h : ∀ v ∈ lc.varList, v < n) :
    lc.replace_vars (fun v => (List.range n).getD v 0) = lc := by
  obtain ⟨terms, c⟩ := lc
  unfold LinComb.replace_vars
  simp only [LinComb.mk.injEq, and_true]
  have hterm : ∀ t ∈ terms, (⟨t.coef, (List.range n).getD t.var 0⟩ : LinCombTerm F) = t := by
    intro t ht
    have hv : t.var < n := h t.var (List.mem_map.mpr ⟨t, ht, rfl⟩)
    rw [range_getD hv]
  rw [List.map_congr_left hterm]
  exact List.map_id terms

theorem map_vars_id (l : List Nat) (n : Nat) (h : ∀ v ∈ l, v < n) :
    l.map (fun v => (List.range n).getD v 0) = l := by
  have hc : ∀ v ∈ l, (List.range n).getD v 0 = id v := fun v hv => range_getD (h v hv)
  rw [List.map_congr_left hc, List.map_id]

theorem replace_vars_id {F : Type} (insn : InsnIn F) (n : Nat)
    (h : ∀ v ∈ insn.varList, v < n) :
    insn.replace_vars (fun v => (List.range n).getD v 0) = insn := by
  cases insn with
  | LinComb lc => exact congrArg _ (lincomb_replace_id lc n h)
  | Mul vs => exact congrArg _ (map_vars_id vs n h)
  | Div x y c =>
    simp only [InsnIn.replace_vars]
    rw [range_getD (h x (by simp [InsnIn.varList])), range_getD (h y (by simp [InsnIn.varList]))]
  | BoolBinOp x y op =>
    simp only [InsnIn.replace_vars]
    rw [range_getD (h x (by simp [InsnIn.varList])), range_getD (h y (by simp [InsnIn.varList]))]
  | IsZero x =>
    simp only [InsnIn.replace_vars]
    rw [range_getD (h x (by simp [InsnIn.varList]))]
  | Commit x =>
    simp only [InsnIn.replace_vars]
    rw [range_getD (h x (by simp [InsnIn.varList]))]
  | Hint id ins nn =>
    simp only [InsnIn.replace_vars]
    rw [map_vars_id ins n h]
  | ConstantOrRandom c => rfl
  | SubCircuitCall id ins nn =>
    simp only [InsnIn.replace_vars]
    rw [map_vars_id ins n h]
  | UnconstrainedBinOp x y op =>
    simp only [InsnIn.replace_vars]
    rw [range_getD (h x (by simp [InsnIn.varList])), range_getD (h y (by simp [InsnIn.varList]))]
  | UnconstrainedSelect c t f =>
    simp only [InsnIn.replace_vars]
    rw [range_getD (h c (by simp [InsnIn.varList])), range_getD (h t (by simp [InsnIn.varList])),
      range_getD (h f (by simp [InsnIn.varList]))]

theorem transform_pass {F : Type} [Field F] [DecidableEq F]
    (opEval : UnconstrainedBinOpType → F → F → Except String F)
    (b : Builder F) (insn : InsnIn F) (h : insn.isPassThrough = true) :
    transform_in_to_out opEval b insn = .ok b insn.asOut := by
  cases insn <;> first | rfl | exact absurd h (by simp [InsnIn.isPassThrough])

theorem range_extend (m k : Nat) :
    List.range (m + 1) ++ (List.range k).map (fun j => m + k - k + 1 + j) =
      List.range (m + k + 1) := by
  have h1 : (List.range k).map (fun j => m + k - k + 1 + j) =
      (List.range k).map (fun x => (m + 1) + x) := by
    apply List.map_congr_left
    intro j _
    omega
  rw [h1, show m + k + 1 = (m + 1) + k by omega]
  conv_rhs => rw [List.range_add]

theorem process_insns_cons_ok {F : Type} [Field F] [DecidableEq F]
    (opEval : UnconstrainedBinOpType → F → F → Except String F)
    (insn : InsnIn F) (rest : List (InsnIn F)) (b : Builder F) (m : List Nat)
    {b1 : Builder F} {out : InsnOut F}
    (htr : transform_in_to_out opEval b (insn.replace_vars (fun v => m.getD v 0)) = .ok b1 out) :
    process_insns opEval (insn :: rest) (.ok b m) =
      process_insns opEval rest (.ok (b1.push_insn out).1
        (m ++ (List.range insn.numOutputs).map
          (fun j => (b1.push_insn out).2 - insn.numOutputs + 1 + j))) := by
  simp only [process_insns, htr]

theorem process_insns_pass {F : Type} [Field F] [DecidableEq F]
    (opEval : UnconstrainedBinOpType → F → F → Except String F) :
    ∀ (pre : List (InsnIn F)) (b : Builder F),
      (∀ insn ∈ pre, insn.isPassThrough = true) →
      (∀ i, i < pre.length → ∀ v ∈ (pre.getD i (.Mul [])).varList,
        v ≤ b.numOut + ((pre.take i).map InsnIn.numOutputs).sum) →
      ∃ cv, process_insns opEval pre (.ok b (List.range (b.numOut + 1))) =
        .ok ⟨b.outInsns ++ pre.map InsnIn.asOut,
          b.numOut + (pre.map InsnIn.numOutputs).sum, cv, b.asserts, b.marks⟩
          (List.range (b.numOut + (pre.map InsnIn.numOutputs).sum + 1)) := by
  intro pre
  induction pre with
  | nil =>
    intro b _ _
    exact ⟨b.constValues, by simp [process_insns]⟩
  | cons insn rest ih =>
    intro b hpass hrefs
    have hp0 : insn.isPassThrough = true := hpass insn (by simp)
    have hv0 : ∀ v ∈ insn.varList, v < b.numOut + 1 := by
      intro v hv
      have h' := hrefs 0 (by simp) v (by simpa using hv)
      simp at h'
      omega
    have htr : transform_in_to_out opEval b
        (insn.replace_vars (fun v => (List.range (b.numOut + 1)).getD v 0)) =
          .ok b insn.asOut := by
      rw [replace_vars_id insn (b.numOut + 1) hv0]
      exact transform_pass opEval b insn hp0
    rw [process_insns_cons_ok opEval insn rest b _ htr]
    set k := insn.numOutputs with hk
    have hkout : ((b.push_insn insn.asOut).2 : Nat) = b.numOut + k := by
      simp [Builder.push_insn, numOutputs_asOut insn hp0, hk]
    have hb1 : (b.push_insn insn.asOut).1.outInsns = b.outInsns ++ [insn.asOut] ∧
        (b.push_insn insn.asOut).1.numOut = b.numOut + k ∧
        (b.push_insn insn.asOut).1.asserts = b.asserts ∧
        (b.push_insn insn.asOut).1.marks = b.marks := by
      refine ⟨rfl, ?_, rfl, rfl⟩
      simp [Builder.push_insn, numOutputs_asOut insn hp0, hk]
    have hrefs2 : ∀ i, i < rest.length → ∀ v ∈ (rest.getD i (.Mul [])).varList,
        v ≤ (b.push_insn insn.asOut).1.numOut + ((rest.take i).map InsnIn.numOutputs).sum := by
      intro i hi v hv
      have h' := hrefs (i + 1) (by simpa using hi) v (by simpa using hv)
      rw [hb1.2.1]
      simp only [List.take_succ_cons, List.map_cons, List.sum_cons] at h'
      omega
    obtain ⟨cv2, hcv2⟩ := ih (b.push_insn insn.asOut).1
      (fun i hi => hpass i (by simp [hi])) hrefs2
    refine ⟨cv2, ?_⟩
    rw [hb1.1, hb1.2.1, hb1.2.2.1, hb1.2.2.2] at hcv2
    simp only [hkout]
    rw [range_extend b.numOut k, hcv2]
    simp [List.map_cons, List.sum_cons, List.append_assoc, Nat.add_assoc]

theorem prefix_push {F : Type} (b : Builder F) (i : InsnOut F) :
    List.IsPrefix b.outInsns ((b.push_insn i).1.outInsns) := by
  show List.IsPrefix b.outInsns (b.outInsns ++ [i])
  exact List.prefix_append _ _

theorem transform_mono {F : Type} [Field F] [DecidableEq F]
    (opEval : UnconstrainedBinOpType → F → F → Except String F)
    (b : Builder F) (insn : InsnIn F) (b1 : Builder F) (out : InsnOut F)
    (h : transform_in_to_out opEval b insn = .ok b1 out) :
    List.IsPrefix b.outInsns b1.outInsns := by
  cases insn <;> simp only [transform_in_to_out] at h <;> repeat' split at h
  all_goals cases h
  all_goals first
    | exact List.prefix_refl _
    | simp [Builder.push_const, Builder.push_insn, Builder.push_add, Builder.push_sub,
        Builder.push_mul, Builder.assert_var, Builder.mark_var, Builder.bool_cond,
        Builder.assert_bool, Builder.mark_bool, List.append_assoc, List.prefix_append]

theorem process_cons_mono {F : Type} [Field F] [DecidableEq F] :
    ∀ (cons : List SourceConstraint) (b : Builder F) (m : Nat → Nat),
      List.IsPrefix b.outInsns ((process_cons cons b m).1.outInsns) := by
  intro cons
  induction cons with
  | nil => intro b m; exact List.prefix_refl _
  | cons c rest ih =>
    intro b m
    show List.IsPrefix b.outInsns
      ((process_cons rest (transform_in_con_to_out b ⟨c.typ, m c.var⟩).1 m).1.outInsns)
    refine List.IsPrefix.trans ?_ (ih _ _)
    cases c.typ <;>
      simp [transform_in_con_to_out, Builder.push_const, Builder.push_insn, Builder.push_mul,
        Builder.push_sub, Builder.bool_cond, List.append_assoc, List.prefix_append]

theorem process_insns_err_absorb {F : Type} [Field F] [DecidableEq F]
    (opEval : UnconstrainedBinOpType → F → F → Except String F)
    (l : List (InsnIn F)) (m : String) :
    process_insns opEval l (.err m) = .err m := by
  cases l <;> rfl

theorem process_insns_panicked_absorb {F : Type} [Field F] [DecidableEq F]
    (opEval : UnconstrainedBinOpType → F → F → Except String F)
    (l : List (InsnIn F)) (m : String) :
    process_insns opEval l (.panicked m) = .panicked m := by
  cases l <;> rfl

theorem process_insns_append {F : Type} [Field F] [DecidableEq F]
    (opEval : UnconstrainedBinOpType → F → F → Except String F) :
    ∀ (l1 l2 : List (InsnIn F)) (st : ProcState F),
      process_insns opEval (l1 ++ l2) st =
        process_insns opEval l2 (process_insns opEval l1 st) := by
  intro l1
  induction l1 with
  | nil => intro l2 st; cases st <;> rfl
  | cons insn rest ih =>
    intro l2 st
    cases st with
    | ok b m =>
      show process_insns opEval (insn :: (rest ++ l2)) (.ok b m) = _
      simp only [process_insns]
      cases htr : transform_in_to_out opEval b (insn.replace_vars fun v => m.getD v 0) with
      | ok b1 out => exact ih l2 _
      | err msg => rw [process_insns_err_absorb]
      | panicked msg => rw [process_insns_panicked_absorb]
    | err m => rw [process_insns_err_absorb, process_insns_err_absorb,
        process_insns_err_absorb]
    | panicked m => rw [process_insns_panicked_absorb, process_insns_panicked_absorb,
        process_insns_panicked_absorb]

theorem process_insns_mono {F : Type} [Field F] [DecidableEq F]
    (opEval : UnconstrainedBinOpType → F → F → Except String F) :
    ∀ (insns : List (InsnIn F)) (b : Builder F) (m : List Nat) (bf : Builder F) (mf : List Nat),
      process_insns opEval insns (.ok b m) = .ok bf mf →
      List.IsPrefix b.outInsns bf.outInsns := by
  intro insns
  induction insns with
  | nil =>
    intro b m bf mf h
    simp only [process_insns] at h
    cases h
    exact List.prefix_refl _
  | cons insn rest ih =>
    intro b m bf mf h
    simp only [process_insns] at h
    cases htr : transform_in_to_out opEval b (insn.replace_vars fun v => m.getD v 0) with
    | ok b1 out =>
      simp only [htr] at h
      exact List.IsPrefix.trans
        (transform_mono opEval b (insn.replace_vars fun v => m.getD v 0) b1 out htr)
        (List.IsPrefix.trans (prefix_push b1 out) (ih _ _ _ _ h))
    | err msg =>
      simp only [htr] at h
      cases h
    | panicked msg =>
      simp only [htr] at h
      cases h

/-- Claim C8 (amended): every pass-through prefix of a circuit's instruction
list reappears bit-identically at the same positions of the processed
circuit; in particular a circuit whose instructions are all pass-through is
emitted unchanged.  (The counterexample below shows that an earlier expanding
instruction shifts positions and renumbers variables, so the unrestricted
claim fails.) -/
theorem pass_through_prefix {F : Type} [Field F] [DecidableEq F]
    (opEval : UnconstrainedBinOpType → F → F → Except String F)
    (c : Circuit F) (oc : OutCircuit F) (pre rest : List (InsnIn F))
    (hsplit : c.instructions = pre ++ rest)
    (hpass : ∀ insn ∈ pre, insn.isPassThrough = true)
    (hrefs : ∀ i, i < pre.length → ∀ v ∈ (pre.getD i (.Mul [])).varList,
      v ≤ c.num_inputs + c.num_hint_inputs + ((pre.take i).map InsnIn.numOutputs).sum)
    (hok : process_circuit opEval c = .ok oc) :
    oc.instructions.take pre.length = pre.map InsnIn.asOut := by
  simp only [process_circuit] at hok
  cases hrun : process_insns opEval c.instructions
      (.ok ⟨[], c.num_inputs + c.num_hint_inputs, [], [], []⟩
        (List.range (c.num_inputs + c.num_hint_inputs + 1))) with
  | ok b1 m1 =>
    simp only [hrun] at hok
    obtain ⟨cv, hpre⟩ := process_insns_pass opEval pre
      ⟨[], c.num_inputs + c.num_hint_inputs, [], [], []⟩ hpass hrefs
    rw [hsplit, process_insns_append opEval pre rest _, hpre] at hrun
    have hprefix1 : List.IsPrefix (pre.map InsnIn.asOut) b1.outInsns := by
      have := process_insns_mono opEval rest _ _ _ _ hrun
      simpa using this
    have hprefix2 : List.IsPrefix (pre.map InsnIn.asOut) oc.instructions := by
      cases hok
      exact List.IsPrefix.trans hprefix1 (process_cons_mono c.constraints b1 _)
    rw [List.prefix_iff_eq_take] at hprefix2
    rw [List.length_map] at hprefix2
    exact hprefix2.symm
  | err msg =>
    simp only [hrun] at hok
    cases hok
  | panicked msg =>
    simp only [hrun] at hok
    cases hok

/-- A circuit with an expanding `IsZero` followed by a pass-through
`LinComb` that references the `IsZero` output. -/
def c8Circuit : Circuit (ZMod 5) := ⟨[.IsZero 1, .LinComb ⟨[⟨1, 2⟩], 0⟩], [], [3], 1, 0⟩

/-- Counterexample to C8 as stated: instruction 1 of the source is the
pass-through `LinComb [(1, 2)]`, but instruction 1 of the processed circuit
is not bit-identical to it (the preceding `IsZero` expanded into several
instructions, shifting positions and renumbering variables). -/
theorem pass_through_position_cex :
    c8Circuit.instructions.getD 1 (.Mul []) = .LinComb ⟨[⟨1, 2⟩], 0⟩ ∧
      (match process_circuit trivOpEval c8Circuit with
        | .ok oc => oc.instructions.getD 1 (.Mul [])
        | _ => .Mul []) ≠ .LinComb ⟨[⟨1, 2⟩], 0⟩ :=
  ⟨rfl, by decide⟩

/-- A circuit whose instructions are all pass-through. -/
def c8Pass : Circuit (ZMod 5) :=
  ⟨[.ConstantOrRandom (.Constant 2), .LinComb ⟨[⟨1, 1⟩, ⟨1, 2⟩], 0⟩, .Mul [1, 3]],
    [], [4], 1, 0⟩

/-- The processed image of `c8Pass`. -/
def c8PassOut : OutCircuit (ZMod 5) :=
  match process_circuit trivOpEval c8Pass with
  | .ok oc => oc
  | _ => ⟨[], [], [], 0, 0⟩

/-- Witness for the amended C8 on the all-pass-through circuit `c8Pass`. -/
theorem pass_through_prefix_witness :
    (c8Pass.instructions =
        [.ConstantOrRandom (.Constant 2), .LinComb ⟨[⟨1, 1⟩, ⟨1, 2⟩], 0⟩,
          .Mul [1, 3]] ++ [] ∧
      (∀ insn ∈ ([.ConstantOrRandom (.Constant 2), .LinComb ⟨[⟨1, 1⟩, ⟨1, 2⟩], 0⟩,
        .Mul [1, 3]] : List (InsnIn (ZMod 5))), insn.isPassThrough = true) ∧
      (∀ i, i < ([.ConstantOrRandom (.Constant 2), .LinComb ⟨[⟨1, 1⟩, ⟨1, 2⟩], 0⟩,
          .Mul [1, 3]] : List (InsnIn (ZMod 5))).length →
        ∀ v ∈ (([.ConstantOrRandom (.Constant 2), .LinComb ⟨[⟨1, 1⟩, ⟨1, 2⟩], 0⟩,
          .Mul [1, 3]] : List (InsnIn (ZMod 5))).getD i (.Mul [])).varList,
        v ≤ c8Pass.num_inputs + c8Pass.num_hint_inputs +
          ((([.ConstantOrRandom (.Constant 2), .LinComb ⟨[⟨1, 1⟩, ⟨1, 2⟩], 0⟩,
            .Mul [1, 3]] : List (InsnIn (ZMod 5))).take i).map InsnIn.numOutputs).sum) ∧
      process_circuit trivOpEval c8Pass = .ok c8PassOut) ∧
    c8PassOut.instructions.take
        ([.ConstantOrRandom (.Constant 2), .LinComb ⟨[⟨1, 1⟩, ⟨1, 2⟩], 0⟩,
          .Mul [1, 3]] : List (InsnIn (ZMod 5))).length =
      ([.ConstantOrRandom (.Constant 2), .LinComb ⟨[⟨1, 1⟩, ⟨1, 2⟩], 0⟩,
        .Mul [1, 3]] : List (InsnIn (ZMod 5))).map InsnIn.asOut :=
  have h1 : c8Pass.instructions =
      [.ConstantOrRandom (.Constant 2), .LinComb ⟨[⟨1, 1⟩, ⟨1, 2⟩], 0⟩,
        .Mul [1, 3]] ++ [] := by simp [c8Pass]
  have h2 : ∀ insn ∈ ([.ConstantOrRandom (.Constant 2), .LinComb ⟨[⟨1, 1⟩, ⟨1, 2⟩], 0⟩,
      .Mul [1, 3]] : List (InsnIn (ZMod 5))), insn.isPassThrough = true := by decide
  have h3 : ∀ i, i < ([.ConstantOrRandom (.Constant 2), .LinComb ⟨[⟨1, 1⟩, ⟨1, 2⟩], 0⟩,
      .Mul [1, 3]] : List (InsnIn (ZMod 5))).length →
      ∀ v ∈ (([.ConstantOrRandom (.Constant 2), .LinComb ⟨[⟨1, 1⟩, ⟨1, 2⟩], 0⟩,
        .Mul [1, 3]] : List (InsnIn (ZMod 5))).getD i (.Mul [])).varList,
      v ≤ c8Pass.num_inputs + c8Pass.num_hint_inputs +
        ((([.ConstantOrRandom (.Constant 2), .LinComb ⟨[⟨1, 1⟩, ⟨1, 2⟩], 0⟩,
          .Mul [1, 3]] : List (InsnIn (ZMod 5))).take i).map InsnIn.numOutputs).sum := by
    decide
  have h4 : process_circuit trivOpEval c8Pass = .ok c8PassOut := rfl
  ⟨⟨h1, h2, h3, h4⟩, pass_through_prefix trivOpEval c8Pass c8PassOut _ [] h1 h2 h3 h4⟩

end ECC
